import Mathlib

/-!
Verification of the smart_rag retrieval-augmented QA service.

Shallow embedding of the programmatic core, translated from the Python
sources: the hybrid-search merge and lexical fallback of
`src/rag/retriever.py`, the agent execute loop of
`src/api/agents/base_agent.py` together with the retry phases of
`src/api/agents/sgr_tool_calling_agent.py`, the batched embedding client of
`src/rag/giga_embeddings.py`, the idempotent indexing of
`src/api/services/rag_service.py`, the structured-output normalisation of
`src/api/routes/llm_routes.py`, and the reranker of `src/rag/reranker.py`.

External effects (HTTP calls, the Qdrant backend, the LLM provider) are
modelled as explicit outcome values fed to the embedded control flow, so
that every branch of the original code is represented by a branch of a
total Lean function.
-/

namespace SmartRag

/-! ### Character-level utilities (Python string semantics) -/

/-- The backtick character, written numerically. -/
def btChar : Char := Char.ofNat 96

/-- The opening curly-brace character. -/
def lbraceChar : Char := Char.ofNat 123

/-- The closing curly-brace character. -/
def rbraceChar : Char := Char.ofNat 125

/-- The double-quote character. -/
def quoteChar : Char := Char.ofNat 34

/-- The backslash character. -/
def bslashChar : Char := Char.ofNat 92

/-- ASCII whitespace as matched by Python's regex class and `str.strip`:
space, tab, newline, carriage return, vertical tab, form feed. -/
def isWsChar (c : Char) : Bool :=
  c = ' ' || c = '\t' || c = '\n' || c = '\r' || c = Char.ofNat 11 || c = Char.ofNat 12

/-- ASCII decimal digit test. -/
def isDigitChar (c : Char) : Bool :=
  '0' ≤ c && c ≤ '9'

/-- Whether the first list is a prefix of the second (Python `startswith`). -/
def startsWithChars : List Char → List Char → Bool
  | [], _ => true
  | _ :: _, [] => false
  | p :: ps, c :: cs => p = c && startsWithChars ps cs

/-- Python `str.lower`, modelled per character. -/
def toLowerChars (s : List Char) : List Char := s.map Char.toLower

/-- Python substring membership `needle in haystack`. -/
def containsSubstr (q s : List Char) : Bool :=
  s.tails.any (startsWithChars q)

/-- Python `str.strip`: drop ASCII whitespace from both ends. -/
def stripChars (s : List Char) : List Char :=
  ((s.dropWhile isWsChar).reverse.dropWhile isWsChar).reverse

/-! ### Hybrid-search merge (`DocumentRetriever._hybrid_search`)

`src/rag/retriever.py` lines 332-379: both legs are run, then results are
combined into an insertion-ordered dict keyed by point id; entries whose id
is falsy or already present are skipped. -/

/-- One entry of the retriever's result lists: the chunk dict
`{id, text, score, metadata}` (metadata elided; `rid` is `None` when the
`id` key is missing). -/
structure RetrievalResult where
  rid : Option String
  text : List Char
  score : ℚ
deriving DecidableEq, Repr

/-- The loop body of `_hybrid_search`: walk the concatenated result list,
keeping an entry only when `result.get("id")` is truthy and the id was not
seen before (`seen` is the key set of the `combined_results` dict). -/
def dedupById : List RetrievalResult → List String → List RetrievalResult
  | [], _ => []
  | r :: rs, seen =>
    match r.rid with
    | none => dedupById rs seen
    | some s =>
      if s = "" then dedupById rs seen
      else if s ∈ seen then dedupById rs seen
      else r :: dedupById rs (s :: seen)

/-- `DocumentRetriever._hybrid_search`'s merge: iterate over
`vector_results + text_results` and collapse duplicate ids, first seen
wins; output order is dict insertion order. -/
def hybridSearchMerge (vectorResults textResults : List RetrievalResult) : List RetrievalResult :=
  dedupById (vectorResults ++ textResults) []

/-- The ids present in a result list. -/
def idsOf (rs : List RetrievalResult) : List (Option String) :=
  rs.map RetrievalResult.rid

/-! ### Lexical fallback search (`DocumentRetriever._text_search_fallback`)

`src/rag/retriever.py` lines 263-330: scroll, keep points whose lowercased
text contains the lowercased query, score by
`occurrences / max(len(text_lower), 1)`, sort descending, truncate. -/

/-- Python `str.count` scanning: count non-overlapping occurrences of the
(nonempty) pattern `q` left to right, skipping the full pattern length on
each hit. -/
def countOccursFrom (q : List Char) : List Char → Nat
  | [] => 0
  | c :: rest =>
    if startsWithChars q (c :: rest) then
      1 + countOccursFrom q (List.drop (q.length - 1) rest)
    else
      countOccursFrom q rest
termination_by s => s.length
decreasing_by
  · simp only [List.length_drop, List.length_cons]
    omega
  · simp only [List.length_cons]
    omega

/-- Python `str.count`, including the empty-pattern case:
`s.count("") == len(s) + 1`. -/
def pythonCount (q s : List Char) : Nat :=
  if q = [] then s.length + 1 else countOccursFrom q s

/-- The fallback relevance score
`occurrences / max(len(text_lower), 1)`, on lowercased inputs. -/
def fallbackScore (queryLower textLower : List Char) : ℚ :=
  (pythonCount queryLower textLower : ℚ) / ((max textLower.length 1 : Nat) : ℚ)

/-- A scrolled point: `point.id` (possibly missing) and `payload["text"]`. -/
structure ScrollPoint where
  pid : Option String
  ptext : List Char
deriving DecidableEq, Repr

/-- Build the chunk dict for a matched point, with the fallback score. -/
def scoreMatchedPoint (queryLower : List Char) (p : ScrollPoint) : RetrievalResult :=
  ⟨p.pid, p.ptext, fallbackScore queryLower (toLowerChars p.ptext)⟩

/-- The matched-and-scored list of `_text_search_fallback`: keep points
whose lowercased text contains the lowercased query, score each. -/
def matchedResults (query : List Char) (points : List ScrollPoint) : List RetrievalResult :=
  (points.filter fun p => containsSubstr (toLowerChars query) (toLowerChars p.ptext)).map
    (scoreMatchedPoint (toLowerChars query))

/-- Insert into a score-descending list, after existing entries of equal
score (stable, as Python's `list.sort` is). -/
def insertByScoreDesc (r : RetrievalResult) : List RetrievalResult → List RetrievalResult
  | [] => [r]
  | x :: xs => if x.score < r.score then r :: x :: xs else x :: insertByScoreDesc r xs

/-- `matched_results.sort(key=lambda x: x["score"], reverse=True)`. -/
def sortByScoreDesc : List RetrievalResult → List RetrievalResult
  | [] => []
  | x :: xs => insertByScoreDesc x (sortByScoreDesc xs)

/-- The body of `_text_search_fallback` after a successful scroll:
match, score, sort descending, truncate to `top_k`. -/
def textSearchFallbackBody (query : List Char) (points : List ScrollPoint) (topK : Nat) :
    List RetrievalResult :=
  (sortByScoreDesc (matchedResults query points)).take topK

/-- `_text_search_fallback` with its enclosing `try/except`: any failure of
the scroll (or of the body) is caught and yields `[]`. -/
def textSearchFallback (scroll : Except String (List ScrollPoint)) (query : List Char)
    (topK : Nat) : List RetrievalResult :=
  match scroll with
  | .ok pts => textSearchFallbackBody query pts topK
  | .error _ => []

/-- The ways `_vector_search`'s body can go: the query embedding raises, the
embedding comes back empty (early `return []`), the HTTP search raises, or
the backend returns parsed results. -/
inductive VectorSearchOutcome where
  | embedExn (msg : String)
  | emptyEmbedding
  | httpExn (msg : String)
  | results (rs : List RetrievalResult)
deriving DecidableEq, Repr

/-- `DocumentRetriever._vector_search`: every exception inside the `try` is
caught and turned into `[]`; an empty query embedding also returns `[]`. -/
def vectorSearchLeg : VectorSearchOutcome → List RetrievalResult
  | .embedExn _ => []
  | .emptyEmbedding => []
  | .httpExn _ => []
  | .results rs => rs

/-- `_hybrid_search` over modelled backend outcomes: run both legs (each
catching its own failures), then merge by id. -/
def hybridSearch (v : VectorSearchOutcome) (scroll : Except String (List ScrollPoint))
    (query : List Char) (textTopK : Nat) : List RetrievalResult :=
  hybridSearchMerge (vectorSearchLeg v) (textSearchFallback scroll query textTopK)

/-! ### Agent loop (`BaseAgent.execute`, `BaseAgent._prepare_tools`)

`src/api/agents/base_agent.py` lines 146-215.  The agent state machine and
context record are imported from `api.agents.models`, which is not among
the available sources; they are modelled from the spec. -/

/-- Modelled from the spec: the agent state enumeration of
`api.agents.models.AgentStatesEnum`, with terminal set
`{completed, failed}` (spec §3, Agent Context). -/
inductive AgentState where
  | researching
  | waitingForClarification
  | completed
  | failed
deriving DecidableEq, Repr

/-- Modelled from the spec: `AgentStatesEnum.FINISH_STATES`. -/
def finishStates : List AgentState := [AgentState.completed, AgentState.failed]

/-- Modelled from the spec: the per-execution `AgentContext` fields the
loop reads and writes — `state`, the monotonic `iteration` counter, and
`execution_result`, which is set exactly once on transition to `completed`
and starts out unset (spec §3). -/
structure AgentContext where
  state : AgentState
  iteration : Nat
  executionResult : Option String
deriving DecidableEq, Repr

/-- The context a fresh agent starts from. -/
def initialAgentContext : AgentContext :=
  ⟨AgentState.researching, 0, none⟩

/-- What the action-selection/action pair of one `_execution_step` does
once the reasoning phase has succeeded: the selected tool is the
`final_answer` tool (modelled from the spec: its invocation sets state to
`completed` and stores the formatted output, spec §4.2), some other tool
(context state unchanged), or the phase raises after its retries. -/
inductive ActionOutcome where
  | finalAnswer (ans : String)
  | otherTool
  | raiseErr (msg : String)
deriving DecidableEq, Repr

/-- One `_execution_step` of `SGRToolCallingAgent` at the current iteration
counter: the reasoning phase runs first (`reasonFail i = some m` models it
raising after its retries); then `_select_action_phase` evaluates
`_prepare_tools`, which raises `"Max iterations reached"` whenever
`iteration >= max_iterations` (base_agent.py line 156); otherwise the
action oracle decides the step. -/
def executionStep (maxIterations : Nat) (reasonFail : Nat → Option String)
    (action : Nat → ActionOutcome) (ctx : AgentContext) : Except String AgentContext :=
  match reasonFail ctx.iteration with
  | some m => .error m
  | none =>
    if maxIterations ≤ ctx.iteration then .error "Max iterations reached"
    else
      match action ctx.iteration with
      | .finalAnswer ans =>
        .ok { ctx with state := AgentState.completed, executionResult := some ans }
      | .otherTool => .ok ctx
      | .raiseErr m => .error m

/-- The `while` loop of `BaseAgent.execute`, with explicit fuel: while the
state is not terminal, increment the iteration counter and run one step; a
raised step is caught by `execute`'s handler, which sets `state = FAILED`
and touches nothing else (base_agent.py lines 208-211). -/
def executeLoop (maxIterations : Nat) (reasonFail : Nat → Option String)
    (action : Nat → ActionOutcome) : Nat → AgentContext → AgentContext
  | 0, ctx => ctx
  | fuel + 1, ctx =>
    if ctx.state ∈ finishStates then ctx
    else
      let ctx1 := { ctx with iteration := ctx.iteration + 1 }
      match executionStep maxIterations reasonFail action ctx1 with
      | .ok ctx2 => executeLoop maxIterations reasonFail action fuel ctx2
      | .error _ => { ctx1 with state := AgentState.failed }

/-- `BaseAgent.execute` from a fresh context.  `maxIterations + 1` units of
fuel are provably enough for the loop to reach a terminal state. -/
def execute (maxIterations : Nat) (reasonFail : Nat → Option String)
    (action : Nat → ActionOutcome) : AgentContext :=
  executeLoop maxIterations reasonFail action (maxIterations + 1) initialAgentContext

/-! ### Phase retry policy (`SGRToolCallingAgent`)

`src/api/agents/sgr_tool_calling_agent.py` lines 72-156 (`_reasoning_phase`)
and 158-237 (`_select_action_phase`): identical `for attempt in
range(max_retries)` loops with identical exception ladders. -/

/-- What one LLM call inside a phase's `try` block produces.  The first
three correspond to `openai.AuthenticationError`, `openai.RateLimitError`
and `openai.BadRequestError`; the next three to `openai.APIConnectionError`,
`openai.APITimeoutError` and the remaining `openai.OpenAIError`s; then any
other unexpected exception; `noToolCall` and `invalidTool` are the
`ValueError`s raised inside the action-selection `try` (caught by the
generic `except Exception`). -/
inductive PhaseCallOutcome where
  | success
  | authError (msg : String)
  | rateLimitError (msg : String)
  | badRequestError (msg : String)
  | connectionError (msg : String)
  | timeoutError (msg : String)
  | apiError (msg : String)
  | unexpectedError (msg : String)
  | noToolCall
  | invalidTool
deriving DecidableEq, Repr

/-- The outcomes the ladder re-raises immediately, without retrying. -/
def isNonRetryable : PhaseCallOutcome → Bool
  | .authError _ => true
  | .rateLimitError _ => true
  | .badRequestError _ => true
  | _ => false

/-- The outcomes the ladder retries (when attempts remain). -/
def isRetryableFailure : PhaseCallOutcome → Bool
  | .connectionError _ => true
  | .timeoutError _ => true
  | .apiError _ => true
  | .unexpectedError _ => true
  | .noToolCall => true
  | .invalidTool => true
  | _ => false

/-- How a phase ends when it does not succeed. -/
inductive PhaseError where
  | nonRetryable (o : PhaseCallOutcome)
  | afterRetries (o : PhaseCallOutcome)
  | exhausted
deriving DecidableEq, Repr

/-- The retry loop shared by both phases, from attempt number `attempt`:
non-retryable outcomes are re-raised as `RuntimeError` at once; retryable
outcomes `continue` while `attempt < max_retries - 1` and are re-raised on
the last attempt; falling out of the loop (possible only when
`max_retries = 0`) raises the trailing `RuntimeError`.  The second
component counts LLM calls made. -/
def phaseRunFrom (oracle : Nat → PhaseCallOutcome) (maxRetries : Nat) (attempt : Nat) :
    Except PhaseError Unit × Nat :=
  if maxRetries ≤ attempt then (.error PhaseError.exhausted, 0)
  else
    match oracle attempt with
    | .success => (.ok (), 1)
    | o =>
      if isNonRetryable o then (.error (PhaseError.nonRetryable o), 1)
      else if attempt < maxRetries - 1 then
        ((phaseRunFrom oracle maxRetries (attempt + 1)).1,
          (phaseRunFrom oracle maxRetries (attempt + 1)).2 + 1)
      else (.error (PhaseError.afterRetries o), 1)
termination_by maxRetries - attempt
decreasing_by all_goals omega

/-- `SGRToolCallingAgent._reasoning_phase`'s retry loop, from attempt 0. -/
def reasoningPhase (oracle : Nat → PhaseCallOutcome) (maxRetries : Nat) :
    Except PhaseError Unit × Nat :=
  phaseRunFrom oracle maxRetries 0

/-- `SGRToolCallingAgent._select_action_phase`'s retry loop, from
attempt 0 (same ladder as the reasoning phase). -/
def selectActionPhase (oracle : Nat → PhaseCallOutcome) (maxRetries : Nat) :
    Except PhaseError Unit × Nat :=
  phaseRunFrom oracle maxRetries 0

/-! ### Embedding client batching (`GigaEmbedding`)

`src/rag/giga_embeddings.py` lines 409-430 (`_get_text_embeddings`),
432-519 (`_get_batch_embeddings`) and 521-607 (`_get_single_embedding`). -/

/-- The batch split of `range(0, len(texts), batch_size)`:
`texts[i:i+batch_size]` slices.  A zero step raises in Python, so the `0`
case is a guard value never exercised by the theorems. -/
def batchesOf {α : Type} : Nat → List α → List (List α)
  | 0, xs => [xs]
  | _ + 1, [] => []
  | n + 1, x :: xs => (x :: xs).take (n + 1) :: batchesOf (n + 1) ((x :: xs).drop (n + 1))
termination_by _ xs => xs.length
decreasing_by
  simp only [List.length_drop, List.length_cons]
  omega

/-- The inner text loop of one `_get_batch_embeddings` attempt: each text
of the batch is sent as one `_get_single_embedding` provider request
(`provider attempt` is the per-text call outcome on that attempt); the
first failing text raises out of the loop and aborts the batch.  The
second component counts provider requests issued. -/
def batchAttempt {E V : Type} (provider : Nat → List Char → Except E V) (attempt : Nat) :
    List (List Char) → Except E (List V) × Nat
  | [] => (.ok [], 0)
  | t :: ts =>
    match provider attempt t with
    | .error e => (.error e, 1)
    | .ok v =>
      let rest := batchAttempt provider attempt ts
      ((rest.1.map fun vs => v :: vs), rest.2 + 1)

/-- `_get_batch_embeddings`'s `for attempt in range(max_retries)` loop from
a given attempt: a successful inner loop returns its embeddings; a failed
one re-raises at once when the exception is non-retryable
(`RuntimeError`/`ValueError`, as `retryable` classifies), retries while
`attempt < max_retries - 1` and re-raises on the last attempt; when the
range is exhausted (`max_retries = 0`) the trailing `return []`
(giga_embeddings.py line 519) yields an empty list with no request. -/
def getBatchEmbeddingsFrom {E V : Type} (provider : Nat → List Char → Except E V)
    (retryable : E → Bool) (maxRetries : Nat) (texts : List (List Char))
    (attempt : Nat) : Except E (List V) × Nat :=
  if attempt < maxRetries then
    match batchAttempt provider attempt texts with
    | (.ok vs, c) => (.ok vs, c)
    | (.error e, c) =>
      if retryable e = true then
        if attempt < maxRetries - 1 then
          ((getBatchEmbeddingsFrom provider retryable maxRetries texts (attempt + 1)).1,
            (getBatchEmbeddingsFrom provider retryable maxRetries texts (attempt + 1)).2 + c)
        else (.error e, c)
      else (.error e, c)
  else (.ok [], 0)
termination_by maxRetries - attempt
decreasing_by all_goals omega

/-- `GigaEmbedding._get_batch_embeddings`: the retry loop from attempt 0. -/
def getBatchEmbeddings {E V : Type} (provider : Nat → List Char → Except E V)
    (retryable : E → Bool) (maxRetries : Nat) (texts : List (List Char)) :
    Except E (List V) × Nat :=
  getBatchEmbeddingsFrom provider retryable maxRetries texts 0

/-- The fold of `_get_text_embeddings` over the batches: extend
`all_embeddings` batch by batch; an exception raised by a batch
propagates, aborting the whole call. -/
def getTextEmbeddingsBatches {E V : Type} (provider : Nat → List Char → Except E V)
    (retryable : E → Bool) (maxRetries : Nat) :
    List (List (List Char)) → Except E (List V) × Nat
  | [] => (.ok [], 0)
  | b :: bs =>
    match getBatchEmbeddings provider retryable maxRetries b with
    | (.error e, c) => (.error e, c)
    | (.ok vs, c) =>
      let rest := getTextEmbeddingsBatches provider retryable maxRetries bs
      ((rest.1.map fun ws => vs ++ ws), rest.2 + c)

/-- `GigaEmbedding._get_text_embeddings`: split the input into batches of
`batchSize` and process them in order, returning all embeddings; the
second component is the number of provider requests issued. -/
def getTextEmbeddings {E V : Type} (provider : Nat → List Char → Except E V)
    (retryable : E → Bool) (maxRetries : Nat) (batchSize : Nat)
    (texts : List (List Char)) : Except E (List V) × Nat :=
  getTextEmbeddingsBatches provider retryable maxRetries (batchesOf batchSize texts)

/-- Ceiling division `⌈m / n⌉`, the batch count the claim predicts. -/
def ceilDiv (m n : Nat) : Nat := (m + n - 1) / n

/-! ### Indexer idempotent replace (`RAGService`)

`src/api/services/rag_service.py` lines 145-216 (`add_files_to_rag`'s
delete-then-insert), 474-547 (`_delete_chunks_by_irv_id`) and 35-81
(`_handle_qdrant_connection_error`). -/

/-- A stored vector point as far as the delete/insert logic sees it: the
point id and the `irv_id` payload field. -/
structure ChunkPoint where
  pointId : String
  irvId : String
  chunkText : List Char
deriving DecidableEq, Repr

/-- Remove the first `k` points whose payload `irv_id` matches, keeping
the rest: the deletion reaches only the points whose ids the single scroll
page listed. -/
def removeMatching : List ChunkPoint → String → Nat → List ChunkPoint
  | [], _, _ => []
  | p :: t, irv, k =>
    if p.irvId = irv then
      if k = 0 then p :: removeMatching t irv 0
      else removeMatching t irv (k - 1)
    else p :: removeMatching t irv k

/-- The effect of `_delete_chunks_by_irv_id` on the store contents: the
scroll fetches a single page of at most 10000 matching point ids
(rag_service.py line 510, `limit=10000`, the continuation offset is never
used), and only those points are deleted — matching points beyond the
first page survive. -/
def deletePointsByIrvId (store : List ChunkPoint) (irv : String) : List ChunkPoint :=
  removeMatching store irv 10000

/-- The points `_process_file` upserts for a document: one fresh-id point
per embedded chunk, each carrying `irv_id` in its payload
(rag_service.py lines 872-935). -/
def buildPoints (irv : String) (chunks : List (List Char)) (freshId : Nat → String) :
    List ChunkPoint :=
  (List.range chunks.length).zipWith (fun i c => ⟨freshId i, irv, c⟩) chunks

/-- The store after `add_files_to_rag` succeeds for document `irv` whose
current files chunk to `chunks`: the old points for `irv` that the single
scroll page reached are deleted, then the fresh points are upserted. -/
def addFilesStore (store : List ChunkPoint) (irv : String) (chunks : List (List Char))
    (freshId : Nat → String) : List ChunkPoint :=
  deletePointsByIrvId store irv ++ buildPoints irv chunks freshId

/-- The number of stored points whose payload `irv_id` matches. -/
def countByIrvId (store : List ChunkPoint) (irv : String) : Nat :=
  (store.filter fun p => p.irvId = irv).length

/-- The `ServiceError` value carried by the error envelope; only the code
matters here. -/
structure ServiceErrorS where
  code : String
deriving DecidableEq, Repr

/-- A Qdrant client call: either a value or a raised exception, recorded as
the exception's message and type name. -/
inductive QdrantOp (α : Type) where
  | ok (v : α)
  | exn (msg : String) (etype : String)

/-- `RAGService._handle_qdrant_connection_error`: classify the exception by
its message and type name and return a `ServiceError` — every branch
returns one (codes `qdrant_timeout`, `qdrant_connection_error`,
`qdrant_error`). -/
def handleQdrantConnectionError (msg etype : String) : ServiceErrorS :=
  if containsSubstr ("timeout".toList) (toLowerChars msg.toList)
      || containsSubstr ("Timeout".toList) (etype.toList) then
    ⟨"qdrant_timeout"⟩
  else if containsSubstr ("connection".toList) (toLowerChars msg.toList)
      || containsSubstr ("Connection".toList) (etype.toList)
      || containsSubstr ("connect".toList) (toLowerChars msg.toList) then
    ⟨"qdrant_connection_error"⟩
  else
    ⟨"qdrant_error"⟩

/-- The batched delete loop of `_delete_chunks_by_irv_id` over the point-id
batches: each failing `client.delete` is converted by
`_handle_qdrant_connection_error` and raised as a `ServiceError`. -/
def deleteBatchesLoop (del : Nat → QdrantOp Unit) : List (List String) → Nat → Nat →
    Except ServiceErrorS Nat
  | [], _, acc => .ok acc
  | b :: bs, i, acc =>
    match del i with
    | .ok _ => deleteBatchesLoop del bs (i + 1) (acc + b.length)
    | .exn m t => .error (handleQdrantConnectionError m t)

/-- `RAGService._delete_chunks_by_irv_id`: scroll one page of at most
10000 matching point ids (a failing scroll is converted and raised as a
`ServiceError`), return 0 when nothing matches, else delete that page in
batches of 1000; every failure path raises a `ServiceError`. -/
def deleteChunksByIrvId (scroll : QdrantOp (List String)) (del : Nat → QdrantOp Unit) :
    Except ServiceErrorS Nat :=
  match scroll with
  | .exn m t => .error (handleQdrantConnectionError m t)
  | .ok pts =>
    if pts = [] then .ok 0
    else deleteBatchesLoop del (batchesOf 1000 pts) 0 0

/-- The pre-delete handling of `add_files_to_rag` (lines 150-164): a raised
`ServiceError` is re-raised, aborting the insertion; only a non-ServiceError
exception would be logged and swallowed.  Returns `true` when the code goes
on to insert the new chunks. -/
def addProceedsAfterPreDelete (scroll : QdrantOp (List String)) (del : Nat → QdrantOp Unit) :
    Bool :=
  match deleteChunksByIrvId scroll del with
  | .ok _ => true
  | .error _ => false

/-! ### JSON values, serialisation and parsing

`_normalize_content_to_response` (`src/api/routes/llm_routes.py` lines
56-79) extracts a JSON document from a fenced code block with
`re.match(r"^(fence)json\s*\n?(.*)\n?(fence)\s*$", text, DOTALL | IGNORECASE)`
and feeds `group(1).strip()` to `json.loads`.  The JSON data model below
follows the JSON grammar used by Python's `json` module, with numbers
restricted to integers (the service's structured outputs carry strings and
objects; float formatting is out of scope of the shallow embedding). -/

/-- A JSON value; numbers are modelled as integers. -/
inductive Jval where
  | jnull
  | jbool (b : Bool)
  | jnum (n : Int)
  | jstr (s : List Char)
  | jarr (elems : List Jval)
  | jobj (fields : List (List Char × Jval))

/-- The decimal digit characters. -/
def digitToChar : Nat → Char
  | 0 => '0'
  | 1 => '1'
  | 2 => '2'
  | 3 => '3'
  | 4 => '4'
  | 5 => '5'
  | 6 => '6'
  | 7 => '7'
  | 8 => '8'
  | _ => '9'

/-- The numeric value of a digit character. -/
def charToDigit (c : Char) : Nat := c.toNat - 48

/-- Decimal rendering of a natural number, most significant digit first. -/
def natToChars (n : Nat) : List Char :=
  if n < 10 then [digitToChar n]
  else natToChars (n / 10) ++ [digitToChar (n % 10)]
termination_by n
decreasing_by exact Nat.div_lt_self (by omega) (by omega)

/-- Decimal rendering of an integer (`json.dumps` of an int). -/
def intToChars (n : Int) : List Char :=
  if n < 0 then '-' :: natToChars n.natAbs else natToChars n.toNat

/-- `json.dumps` string escaping for one character (the escapes the model
round-trips; other characters are emitted literally). -/
def escChar (c : Char) : List Char :=
  if c = quoteChar then [bslashChar, quoteChar]
  else if c = bslashChar then [bslashChar, bslashChar]
  else if c = '\n' then [bslashChar, 'n']
  else if c = '\t' then [bslashChar, 't']
  else if c = '\r' then [bslashChar, 'r']
  else [c]

/-- Escape a whole string body. -/
def escapeChars (s : List Char) : List Char := (s.map escChar).flatten

mutual

/-- `json.dumps` with its default separators `", "` and `": "`. -/
def stringifyJ : Jval → List Char
  | .jnull => ['n', 'u', 'l', 'l']
  | .jbool true => ['t', 'r', 'u', 'e']
  | .jbool false => ['f', 'a', 'l', 's', 'e']
  | .jnum n => intToChars n
  | .jstr s => quoteChar :: escapeChars s ++ [quoteChar]
  | .jarr xs => '[' :: stringifyElems xs ++ [']']
  | .jobj fs => lbraceChar :: stringifyFields fs ++ [rbraceChar]

/-- Comma-separated array elements. -/
def stringifyElems : List Jval → List Char
  | [] => []
  | [x] => stringifyJ x
  | x :: y :: xs => stringifyJ x ++ ',' :: ' ' :: stringifyElems (y :: xs)

/-- Comma-separated `"key": value` fields. -/
def stringifyFields : List (List Char × Jval) → List Char
  | [] => []
  | [(k, v)] => quoteChar :: escapeChars k ++ quoteChar :: ':' :: ' ' :: stringifyJ v
  | (k, v) :: f :: fs =>
    quoteChar :: escapeChars k ++ quoteChar :: ':' :: ' ' :: stringifyJ v
      ++ ',' :: ' ' :: stringifyFields (f :: fs)

end

mutual

/-- Fuel bound for the recursive-descent parser on a value. -/
def jsize : Jval → Nat
  | .jarr xs => 1 + jsizeElems xs
  | .jobj fs => 1 + jsizeFields fs
  | _ => 1

/-- Fuel bound for parsing the element list of an array. -/
def jsizeElems : List Jval → Nat
  | [] => 1
  | x :: xs => 1 + max (jsize x) (jsizeElems xs)

/-- Fuel bound for parsing the field list of an object. -/
def jsizeFields : List (List Char × Jval) → Nat
  | [] => 1
  | (_, v) :: fs => 1 + max (jsize v) (jsizeFields fs)

end

/-- Inverse of `escChar` on the character after a backslash. -/
def unescChar (c : Char) : Option Char :=
  if c = quoteChar then some quoteChar
  else if c = bslashChar then some bslashChar
  else if c = '/' then some '/'
  else if c = 'n' then some '\n'
  else if c = 't' then some '\t'
  else if c = 'r' then some '\r'
  else none

/-- Parse a JSON string body after the opening quote, up to and including
the closing quote. -/
def parseStringBody : List Char → Option (List Char × List Char)
  | [] => none
  | c :: rest =>
    if c = quoteChar then some ([], rest)
    else if c = bslashChar then
      match rest with
      | [] => none
      | e :: rest2 =>
        match unescChar e with
        | none => none
        | some d =>
          match parseStringBody rest2 with
          | none => none
          | some (s, r) => some (d :: s, r)
    else
      match parseStringBody rest with
      | none => none
      | some (s, r) => some (c :: s, r)

/-- Fold a digit run into a natural number. -/
def digitsToNat (ds : List Char) : Nat :=
  ds.foldl (fun a c => a * 10 + charToDigit c) 0

/-- Parse a leading digit run. -/
def parseNat (s : List Char) : Option (Nat × List Char) :=
  match s.takeWhile isDigitChar with
  | [] => none
  | ds => some (digitsToNat ds, s.dropWhile isDigitChar)

/-- Parse a JSON integer, with optional leading minus. -/
def parseNum : List Char → Option (Int × List Char)
  | [] => none
  | c :: rest =>
    if c = '-' then (parseNat rest).map fun p => (-(p.1 : Int), p.2)
    else (parseNat (c :: rest)).map fun p => ((p.1 : Int), p.2)

/-- Consume an expected literal character run. -/
def dropExpect : List Char → List Char → Option (List Char)
  | [], r => some r
  | p :: ps, c :: cs => if p = c then dropExpect ps cs else none
  | _ :: _, [] => none

mutual

/-- Recursive-descent JSON value parser with fuel; leading whitespace is
skipped, trailing input is returned. -/
def parseJ : Nat → List Char → Option (Jval × List Char)
  | 0, _ => none
  | fuel + 1, s =>
    match s.dropWhile isWsChar with
    | [] => none
    | c :: rest =>
      if c = 'n' then (dropExpect ['u', 'l', 'l'] rest).map fun r => (Jval.jnull, r)
      else if c = 't' then (dropExpect ['r', 'u', 'e'] rest).map fun r => (Jval.jbool true, r)
      else if c = 'f' then
        (dropExpect ['a', 'l', 's', 'e'] rest).map fun r => (Jval.jbool false, r)
      else if c = quoteChar then (parseStringBody rest).map fun p => (Jval.jstr p.1, p.2)
      else if c = '[' then (parseElems fuel rest).map fun p => (Jval.jarr p.1, p.2)
      else if c = lbraceChar then (parseFields fuel rest).map fun p => (Jval.jobj p.1, p.2)
      else (parseNum (c :: rest)).map fun p => (Jval.jnum p.1, p.2)

/-- Parse array elements after the opening bracket, up to and including the
closing bracket. -/
def parseElems : Nat → List Char → Option (List Jval × List Char)
  | 0, _ => none
  | fuel + 1, s =>
    match s.dropWhile isWsChar with
    | [] => none
    | c :: rest =>
      if c = ']' then some ([], rest)
      else
        match parseJ fuel (c :: rest) with
        | none => none
        | some (v, r) =>
          match r.dropWhile isWsChar with
          | ']' :: r2 => some ([v], r2)
          | ',' :: r2 =>
            match parseElems fuel r2 with
            | none => none
            | some (vs, r3) => some (v :: vs, r3)
          | _ => none

/-- Parse object fields after the opening brace, up to and including the
closing brace. -/
def parseFields : Nat → List Char → Option (List (List Char × Jval) × List Char)
  | 0, _ => none
  | fuel + 1, s =>
    match s.dropWhile isWsChar with
    | [] => none
    | c :: rest =>
      if c = rbraceChar then some ([], rest)
      else if c = quoteChar then
        match parseStringBody rest with
        | none => none
        | some (k, r) =>
          match r.dropWhile isWsChar with
          | [] => none
          | c2 :: r2 =>
            if c2 = ':' then
              match parseJ fuel r2 with
              | none => none
              | some (v, r3) =>
                match r3.dropWhile isWsChar with
                | [] => none
                | c3 :: r4 =>
                  if c3 = rbraceChar then some ([(k, v)], r4)
                  else if c3 = ',' then
                    match parseFields fuel r4 with
                    | none => none
                    | some (fs, r5) => some ((k, v) :: fs, r5)
                  else none
            else none
      else none

end

/-- `json.loads`: parse one JSON document, allowing surrounding
whitespace and nothing else.  The input length plus one is provably enough
fuel for any serialised value. -/
def jsonLoads (s : List Char) : Option Jval :=
  match parseJ (s.length + 1) s with
  | some (v, rest) => if rest.dropWhile isWsChar = [] then some v else none
  | none => none

/-! ### Fenced-block extraction and `_normalize_content_to_response` -/

/-- The closing three-backtick fence. -/
def fence3 : List Char := [btChar, btChar, btChar]

/-- The opening fence with language tag, as written in the claim's input. -/
def fenceJsonPat : List Char := [btChar, btChar, btChar, 'j', 's', 'o', 'n']

/-- Match the literal `(fence)json` prefix of the pattern, case-insensitive
on the letters as `re.IGNORECASE` makes it. -/
def matchFencePrefix : List Char → Option (List Char)
  | c0 :: c1 :: c2 :: c3 :: c4 :: c5 :: c6 :: rest =>
    if c0 = btChar && c1 = btChar && c2 = btChar && Char.toLower c3 = 'j'
        && Char.toLower c4 = 's' && Char.toLower c5 = 'o' && Char.toLower c6 = 'n' then
      some rest
    else none
  | _ => none

/-- Whether `r` matches the pattern tail `(fence)\s*$`. -/
def fenceTailOk (r : List Char) : Bool :=
  match r with
  | b0 :: b1 :: b2 :: rest => b0 = btChar && b1 = btChar && b2 = btChar && rest.all isWsChar
  | _ => false

/-- Whether `r` matches the pattern tail `\n?(fence)\s*$`. -/
def suffixOk (r : List Char) : Bool :=
  fenceTailOk r
    || match r with
       | '\n' :: rest => fenceTailOk rest
       | _ => false

/-- Greedy split for `(.*)` with `re.DOTALL`: scanning down from `i`, take
the longest prefix of `R` whose complement matches `\n?(fence)\s*$`. -/
def findSplitAux (R : List Char) : Nat → Option (List Char)
  | 0 => if suffixOk R then some [] else none
  | i + 1 =>
    if suffixOk (R.drop (i + 1)) then some (R.take (i + 1))
    else findSplitAux R i

/-- `group(1)` of the fenced-block regex applied to `text`, when the
pattern matches.  After the literal prefix the greedy `\s*` consumes every
whitespace character (after which `\n?` can only match empty), and the
greedy `(.*)` takes the longest prefix leaving a valid tail. -/
def fencedInner (text : List Char) : Option (List Char) :=
  match matchFencePrefix text with
  | none => none
  | some rest =>
    let R := rest.dropWhile isWsChar
    findSplitAux R R.length

/-- What `_normalize_content_to_response` returns: a parsed JSON document
or the raw content string. -/
inductive NormResult where
  | json (v : Jval)
  | raw (s : List Char)

/-- The post-regex fallback of `_normalize_content_to_response`: text
starting with an opening brace is tried as JSON; otherwise (or when
parsing fails) the original content comes back. -/
def normalizeFallback (text content : List Char) : NormResult :=
  match text with
  | [] => NormResult.raw content
  | c :: _ =>
    if c = lbraceChar then
      match jsonLoads text with
      | some v => NormResult.json v
      | none => NormResult.raw content
    else NormResult.raw content

/-- `_normalize_content_to_response` (llm_routes.py lines 56-79): empty or
all-whitespace content is returned as is; otherwise the stripped text is
matched against the fenced-block pattern and `group(1).strip()` is parsed;
on failure the brace fallback runs. -/
def normalizeContentToResponse (content : List Char) : NormResult :=
  if content.dropWhile isWsChar = [] then NormResult.raw content
  else
    let text := stripChars content
    match fencedInner text with
    | some innerRaw =>
      match jsonLoads (stripChars innerRaw) with
      | some v => NormResult.json v
      | none => normalizeFallback text content
    | none => normalizeFallback text content

/-! ### `/v1/generate` transcript persistence (`generate_response`)

`src/api/routes/llm_routes.py` lines 92-195: after a successful
generation, `save_chat_history` runs inside its own `try`; both `except`
arms only log, and the response body is built from the normalised content,
attaching `chat_history` only when a descriptor was produced. -/

/-- A successful generation from the LLM service: the content string plus
optional dialog metadata. -/
structure GenerateSuccess where
  content : List Char
  chatTitle : Option String
  chatSummary : Option String

/-- How `save_chat_history` can end: a descriptor, a raised
`ServiceError`, or any other raised exception. -/
inductive SaveOutcome where
  | saved (descriptor : String)
  | raisedServiceError (msg : String)
  | raisedOther (msg : String)
deriving DecidableEq, Repr

/-- The JSON body `generate_response` returns: the normalised content, an
optional `chat_history` descriptor, and an optional error code. -/
structure GenerateBody where
  body : NormResult
  chatHistory : Option String
  errorCode : Option String

/-- `generate_response` after validation and mode dispatch: service errors
become error envelopes; on success the transcript save is attempted and
any raised save error is logged and swallowed, leaving
`chat_history_result = None`. -/
def generateRoute (gen : Except ServiceErrorS GenerateSuccess) (save : SaveOutcome) :
    GenerateBody :=
  match gen with
  | .error e => ⟨NormResult.raw [], none, some e.code⟩
  | .ok g =>
    let chatHistoryResult : Option String :=
      match save with
      | .saved d => some d
      | .raisedServiceError _ => none
      | .raisedOther _ => none
    ⟨normalizeContentToResponse g.content, chatHistoryResult, none⟩

/-! ### Reranker (`ChatCompletionsReranker.rerank`)

`src/rag/reranker.py` lines 52-121. -/

/-- Blend one document with its reranker score:
`0.3 * original + 0.7 * clamp(score, 0, 1)`. -/
def rerankBlend (doc : RetrievalResult) (score : ℚ) : RetrievalResult :=
  { doc with score := doc.score * (3 / 10) + max 0 (min 1 score) * (7 / 10) }

/-- `ChatCompletionsReranker.rerank`: empty input short-circuits; `top_k`
defaults to the document count; a backend failure
(`_get_rerank_scores` raising after its retries, modelled as the `.error`
case) or a score list of the wrong length returns the input order
truncated; otherwise scores are blended, sorted descending, truncated. -/
def rerank (scores : Except String (List ℚ)) (documents : List RetrievalResult)
    (topK : Option Nat) : List RetrievalResult :=
  if documents = [] then []
  else
    let k := topK.getD documents.length
    match scores with
    | .error _ => documents.take k
    | .ok ss =>
      if ss = [] ∨ ¬ss.length = documents.length then documents.take k
      else
        (sortByScoreDesc ((documents.zip ss).map fun p => rerankBlend p.1 p.2)).take k

/-! ## Theorems -/

/-! ### Generic list helpers -/

theorem startsWithChars_nil_left (s : List Char) : startsWithChars [] s = true := by
  cases s <;> rfl

theorem dropWhile_cons_of_neg {p : Char → Bool} {c : Char} {t : List Char}
    (h : p c = false) : (c :: t).dropWhile p = c :: t := by
  simp [List.dropWhile, h]

theorem dropWhile_append_of_head {p : Char → Bool} {c : Char} {t r : List Char}
    (h : p c = false) : ((c :: t) ++ r).dropWhile p = (c :: t) ++ r := by
  simp [List.dropWhile, h]

/-! ### C8: transcript-save failures are swallowed -/

/-- C8: for every `/v1/generate` request whose answer generation succeeds,
a raised transcript-save error (a `ServiceError` or any other exception)
is swallowed: the route still returns the success body built from the
normalised content with no error envelope, merely omitting the
`chat_history` descriptor; a successful save differs only by attaching the
descriptor. -/
theorem generate_swallows_save_failure
    (g : GenerateSuccess) (m1 m2 d : String) :
    generateRoute (.ok g) (SaveOutcome.raisedServiceError m1)
        = ⟨normalizeContentToResponse g.content, none, none⟩
      ∧ generateRoute (.ok g) (SaveOutcome.raisedOther m2)
        = ⟨normalizeContentToResponse g.content, none, none⟩
      ∧ generateRoute (.ok g) (SaveOutcome.saved d)
        = ⟨normalizeContentToResponse g.content, some d, none⟩ :=
  ⟨rfl, rfl, rfl⟩

/-! ### C9: the reranker degrades but never fails retrieval -/

/-- C9 (implicit): `rerank` is total over every backend outcome, and when
the reranker backend fails after its retries, or returns a score list
whose length differs from the document count, the input documents come
back unchanged in their original order, truncated to `top_k` (which
defaults to the document count). -/
theorem rerank_total_fallback (documents : List RetrievalResult) (topK : Option Nat)
    (m : String) :
    rerank (.error m) documents topK = documents.take (topK.getD documents.length)
      ∧ ∀ ss : List ℚ, ¬ss.length = documents.length →
          rerank (.ok ss) documents topK = documents.take (topK.getD documents.length) := by
  constructor
  · unfold rerank
    by_cases hd : documents = []
    · subst hd; simp
    · rw [if_neg hd]
  · intro ss hlen
    unfold rerank
    by_cases hd : documents = []
    · subst hd; simp
    · rw [if_neg hd]
      exact if_pos (Or.inr hlen)

/-- Witness for C9 at concrete inputs: two documents, a failing backend and
a one-score response both return the original pair truncated to `top_k = 1`. -/
theorem rerank_total_fallback_witness :
    rerank (.error "boom") [⟨some "1", ['a'], 0⟩, ⟨some "2", ['b'], 0⟩] (some 1)
        = [⟨some "1", ['a'], 0⟩]
      ∧ rerank (.ok [1]) [⟨some "1", ['a'], 0⟩, ⟨some "2", ['b'], 0⟩] (some 1)
        = [⟨some "1", ['a'], 0⟩] := by
  have h := rerank_total_fallback [⟨some "1", ['a'], 0⟩, ⟨some "2", ['b'], 0⟩] (some 1) "boom"
  exact ⟨h.1, h.2 [1] (by decide)⟩

/-! ### C10: a failing search leg yields an empty list, not an error -/

/-- C10 (implicit): every failure inside the dense-search leg or the
lexical-fallback leg is caught and becomes `[]`, so the hybrid result is
the merge of the surviving leg alone (possibly empty) and no exception
ever leaves the retrieval. -/
theorem hybrid_legs_swallow_failures (query : List Char) (topK : Nat)
    (scroll : Except String (List ScrollPoint)) (v : VectorSearchOutcome) (m : String) :
    vectorSearchLeg (VectorSearchOutcome.httpExn m) = []
      ∧ vectorSearchLeg (VectorSearchOutcome.embedExn m) = []
      ∧ textSearchFallback (.error m) query topK = []
      ∧ hybridSearch (VectorSearchOutcome.httpExn m) scroll query topK
          = dedupById (textSearchFallback scroll query topK) []
      ∧ hybridSearch v (.error m) query topK = dedupById (vectorSearchLeg v) [] := by
  refine ⟨rfl, rfl, rfl, rfl, ?_⟩
  simp [hybridSearch, hybridSearchMerge, textSearchFallback]

/-! ### C3: embedding batching -/

theorem batchesOf_flatten {α : Type} : ∀ (m : Nat) (xs : List α),
    (batchesOf (m + 1) xs).flatten = xs
  | _, [] => by simp [batchesOf]
  | m, x :: t => by
    rw [batchesOf]
    simp only [List.flatten_cons]
    rw [batchesOf_flatten m ((x :: t).drop (m + 1))]
    exact List.take_append_drop (m + 1) (x :: t)
termination_by m xs => xs.length
decreasing_by simp only [List.length_drop, List.length_cons]; omega

theorem batchesOf_count {α : Type} : ∀ (m : Nat) (xs : List α),
    (batchesOf (m + 1) xs).length = ceilDiv xs.length (m + 1)
  | m, [] => by
    simp only [batchesOf, List.length_nil, ceilDiv]
    have e : 0 + (m + 1) - 1 = m := by omega
    rw [e, Nat.div_eq_of_lt (by omega)]
  | m, x :: t => by
    rw [batchesOf]
    simp only [List.length_cons]
    rw [batchesOf_count m ((x :: t).drop (m + 1))]
    simp only [ceilDiv, List.length_drop, List.length_cons]
    rcases Nat.lt_or_ge (t.length + 1) (m + 1) with hlt | hge
    · have h1 : t.length + 1 - (m + 1) = 0 := by omega
      rw [h1]
      have h0 : 0 + (m + 1) - 1 = m := by omega
      rw [h0, Nat.div_eq_of_lt (by omega)]
      have h2 : (t.length + 1 + (m + 1) - 1) / (m + 1) = 1 := by
        have := Nat.div_eq_of_lt_le
          (by omega : 1 * (m + 1) ≤ t.length + 1 + (m + 1) - 1)
          (by omega : t.length + 1 + (m + 1) - 1 < (1 + 1) * (m + 1))
        simpa using this
      rw [h2]
    · have h1 : t.length + 1 - (m + 1) + (m + 1) - 1 = t.length := by omega
      have h2 : t.length + 1 + (m + 1) - 1 = t.length + (m + 1) := by omega
      rw [h1, h2, Nat.add_div_right _ (by omega)]
termination_by m xs => xs.length
decreasing_by simp only [List.length_drop, List.length_cons]; omega

theorem batchAttempt_ok {E V : Type} (provider : Nat → List Char → Except E V) (a : Nat)
    (f : List Char → V) (b : List (List Char)) (h : ∀ t ∈ b, provider a t = .ok (f t)) :
    batchAttempt provider a b = (.ok (b.map f), b.length) := by
  induction b with
  | nil => rfl
  | cons t ts ih =>
    rw [batchAttempt, h t (by simp)]
    rw [ih fun u hu => h u (by simp [hu])]
    simp [Except.map]

theorem batchAttempt_ok_length {E V : Type} (provider : Nat → List Char → Except E V)
    (a : Nat) : ∀ (b : List (List Char)) (vs : List V) (c : Nat),
    batchAttempt provider a b = (.ok vs, c) → vs.length = b.length
  | [], vs, c => by
    intro h
    rw [batchAttempt] at h
    simp only [Prod.mk.injEq, Except.ok.injEq] at h
    rw [← h.1]
    rfl
  | t :: ts, vs, c => by
    intro h
    rw [batchAttempt] at h
    cases hp : provider a t with
    | error e =>
      rw [hp] at h
      simp at h
    | ok v =>
      rw [hp] at h
      dsimp only at h
      cases hr : (batchAttempt provider a ts).1 with
      | error e2 =>
        rw [hr] at h
        simp [Except.map] at h
      | ok ws =>
        rw [hr] at h
        have h2 : batchAttempt provider a ts
            = (Except.ok ws, (batchAttempt provider a ts).2) := by
          rw [← hr]
        have ih := batchAttempt_ok_length provider a ts ws _ h2
        simp only [Except.map, Prod.mk.injEq, Except.ok.injEq] at h
        rw [← h.1]
        simp [ih]

theorem getBatchEmbeddingsFrom_ok_length {E V : Type}
    (provider : Nat → List Char → Except E V) (retryable : E → Bool) (maxRetries : Nat)
    (b : List (List Char)) : ∀ (attempt : Nat) (vs : List V) (c : Nat),
    attempt < maxRetries →
    getBatchEmbeddingsFrom provider retryable maxRetries b attempt = (.ok vs, c) →
    vs.length = b.length
  | attempt, vs, c => by
    intro hlt h
    rw [getBatchEmbeddingsFrom, if_pos hlt] at h
    cases hb : batchAttempt provider attempt b with
    | mk res cnt =>
      rw [hb] at h
      cases res with
      | ok ws =>
        dsimp only at h
        simp only [Prod.mk.injEq, Except.ok.injEq] at h
        rw [← h.1]
        exact batchAttempt_ok_length provider attempt b ws cnt hb
      | error e =>
        dsimp only at h
        by_cases hre : retryable e = true
        · rw [if_pos hre] at h
          by_cases hlast : attempt < maxRetries - 1
          · rw [if_pos hlast] at h
            have h1 : (getBatchEmbeddingsFrom provider retryable maxRetries b
                (attempt + 1)).1 = .ok vs := congrArg Prod.fst h
            have h2 : getBatchEmbeddingsFrom provider retryable maxRetries b (attempt + 1)
                = (Except.ok vs,
                    (getBatchEmbeddingsFrom provider retryable maxRetries b
                      (attempt + 1)).2) := by
              rw [← h1]
            exact getBatchEmbeddingsFrom_ok_length provider retryable maxRetries b
              (attempt + 1) vs _ (by omega) h2
          · rw [if_neg hlast] at h
            simp at h
        · rw [if_neg hre] at h
          simp at h
termination_by attempt vs c => maxRetries - attempt
decreasing_by omega

theorem getBatchEmbeddings_ok {E V : Type} (provider : Nat → List Char → Except E V)
    (retryable : E → Bool) (maxRetries : Nat) (hm : 1 ≤ maxRetries) (f : List Char → V)
    (b : List (List Char)) (h : ∀ t ∈ b, provider 0 t = .ok (f t)) :
    getBatchEmbeddings provider retryable maxRetries b = (.ok (b.map f), b.length) := by
  rw [getBatchEmbeddings, getBatchEmbeddingsFrom, if_pos (by omega),
    batchAttempt_ok provider 0 f b h]

theorem getTextEmbeddingsBatches_ok {E V : Type} (provider : Nat → List Char → Except E V)
    (retryable : E → Bool) (maxRetries : Nat) (hm : 1 ≤ maxRetries) (f : List Char → V)
    (bs : List (List (List Char)))
    (h : ∀ b ∈ bs, ∀ t ∈ b, provider 0 t = .ok (f t)) :
    getTextEmbeddingsBatches provider retryable maxRetries bs
      = (.ok (bs.flatten.map f), bs.flatten.length) := by
  induction bs with
  | nil => rfl
  | cons b rest ih =>
    rw [getTextEmbeddingsBatches,
      getBatchEmbeddings_ok provider retryable maxRetries hm f b (h b (by simp))]
    rw [ih fun b2 hb2 => h b2 (by simp [hb2])]
    simp [Except.map, Nat.add_comm]

theorem getTextEmbeddingsBatches_ok_length {E V : Type}
    (provider : Nat → List Char → Except E V) (retryable : E → Bool) (maxRetries : Nat)
    (hm : 1 ≤ maxRetries) : ∀ (bs : List (List (List Char))) (vs : List V) (c : Nat),
    getTextEmbeddingsBatches provider retryable maxRetries bs = (.ok vs, c) →
    vs.length = bs.flatten.length
  | [], vs, c => by
    intro h
    rw [getTextEmbeddingsBatches] at h
    simp only [Prod.mk.injEq, Except.ok.injEq] at h
    rw [← h.1]
    rfl
  | b :: rest, vs, c => by
    intro h
    rw [getTextEmbeddingsBatches] at h
    cases hb : getBatchEmbeddings provider retryable maxRetries b with
    | mk res cnt =>
      rw [hb] at h
      cases res with
      | error e =>
        dsimp only at h
        simp at h
      | ok ws =>
        dsimp only at h
        cases hr : (getTextEmbeddingsBatches provider retryable maxRetries rest).1 with
        | error e2 =>
          rw [hr] at h
          simp [Except.map] at h
        | ok us =>
          rw [hr] at h
          have h2 : getTextEmbeddingsBatches provider retryable maxRetries rest
              = (Except.ok us,
                  (getTextEmbeddingsBatches provider retryable maxRetries rest).2) := by
            rw [← hr]
          have hus := getTextEmbeddingsBatches_ok_length provider retryable maxRetries hm
            rest us _ h2
          have hws : ws.length = b.length :=
            getBatchEmbeddingsFrom_ok_length provider retryable maxRetries b 0 ws cnt
              (by omega) hb
          simp only [Except.map, Prod.mk.injEq, Except.ok.injEq] at h
          rw [← h.1]
          simp [hus, hws]

/-- C3 (amended): with `batch_size = N ≥ 1`, `max_retries ≥ 1` and `M`
input texts, the client processes exactly `⌈M/N⌉` batches, but the
provider is single-input: one request per text, so exactly `M` provider
requests and a vector list of length exactly `M` on the success path; any
successful return carries one vector per input text, so a failing text
fails the whole call and partial success is never returned.  (Only the
degenerate `max_retries = 0` configuration short-circuits to an empty
list with no request at all.) -/
theorem embedding_batching {E V : Type} (provider : Nat → List Char → Except E V)
    (retryable : E → Bool) (maxRetries : Nat) (f : List Char → V) (n : Nat)
    (texts : List (List Char)) (h : 1 ≤ n) (hm : 1 ≤ maxRetries) :
    (batchesOf n texts).length = ceilDiv texts.length n
      ∧ ((∀ t ∈ texts, provider 0 t = .ok (f t)) →
          getTextEmbeddings provider retryable maxRetries n texts
            = (.ok (texts.map f), texts.length))
      ∧ (∀ vs c, getTextEmbeddings provider retryable maxRetries n texts = (.ok vs, c) →
          vs.length = texts.length) := by
  obtain ⟨m, rfl⟩ : ∃ m, n = m + 1 := ⟨n - 1, by omega⟩
  refine ⟨batchesOf_count m texts, fun hok => ?_, fun vs c hvs => ?_⟩
  · rw [getTextEmbeddings,
      getTextEmbeddingsBatches_ok provider retryable maxRetries hm f
        (batchesOf (m + 1) texts)
        (fun b hb t ht => hok t (by
          rw [← batchesOf_flatten m texts]
          exact List.mem_flatten.mpr ⟨b, hb, ht⟩)),
      batchesOf_flatten m texts]
  · have hlen := getTextEmbeddingsBatches_ok_length provider retryable maxRetries hm
      (batchesOf (m + 1) texts) vs c hvs
    rwa [batchesOf_flatten m texts] at hlen

/-- Witness for C3 at a concrete input: three texts in batches of two at
the default `max_retries = 3`. -/
theorem embedding_batching_witness :
    (batchesOf 2 [['a'], ['b'], ['c']]).length = ceilDiv 3 2
      ∧ getTextEmbeddings (fun _ _ => (.ok 7 : Except Unit Nat)) (fun _ => true) 3 2
          [['a'], ['b'], ['c']] = (.ok [7, 7, 7], 3) := by
  have h := embedding_batching (fun _ _ => (.ok 7 : Except Unit Nat)) (fun _ => true) 3
    (fun _ => 7) 2 [['a'], ['b'], ['c']] (by decide) (by decide)
  exact ⟨h.1, h.2.1 fun t _ => rfl⟩

/-- C3 counterexample: with `batch_size = 10` and `M = 2` texts the claim
predicts `⌈2/10⌉ = 1` provider request, but the client issues one request
per text — two requests — because the provider is single-input; and with
`max_retries = 0` the retry loop never runs and the trailing `return []`
yields an empty list with no request, not a list of length `M`. -/
theorem embedding_batching_counterexample :
    (getTextEmbeddings (fun _ _ => (.ok 7 : Except Unit Nat)) (fun _ => true) 3 10
        [['a'], ['b']]).2 = 2
      ∧ ceilDiv 2 10 = 1 ∧ ¬(2 : Nat) = 1
      ∧ getTextEmbeddings (fun _ _ => (.ok 7 : Except Unit Nat)) (fun _ => true) 0 10
          [['a'], ['b']] = (.ok [], 0) := by
  have hbat : batchesOf 10 [(['a'] : List Char), ['b']] = [[['a'], ['b']]] := by
    rw [batchesOf]
    norm_num [batchesOf]
  have hb3 : getBatchEmbeddings (fun _ _ => (.ok 7 : Except Unit Nat)) (fun _ => true) 3
      [['a'], ['b']] = (.ok [7, 7], 2) :=
    getBatchEmbeddings_ok _ _ 3 (by omega) (fun _ => 7) [['a'], ['b']] (fun t _ => rfl)
  have hb0 : getBatchEmbeddings (fun _ _ => (.ok 7 : Except Unit Nat)) (fun _ => true) 0
      [['a'], ['b']] = (.ok [], 0) := by
    rw [getBatchEmbeddings, getBatchEmbeddingsFrom, if_neg (by omega)]
  refine ⟨?_, rfl, by omega, ?_⟩
  · rw [getTextEmbeddings, hbat, getTextEmbeddingsBatches, hb3]
    rfl
  · rw [getTextEmbeddings, hbat, getTextEmbeddingsBatches, hb0]
    rfl

/-! ### C1: idempotent re-add and the fate of pre-delete failures -/

theorem countByIrvId_cons (p : ChunkPoint) (l : List ChunkPoint) (irv : String) :
    countByIrvId (p :: l) irv
      = (if p.irvId = irv then 1 else 0) + countByIrvId l irv := by
  unfold countByIrvId
  rw [List.filter_cons]
  by_cases hp : p.irvId = irv
  · simp [hp, Nat.add_comm]
  · simp [hp]

theorem countByIrvId_removeMatching (irv : String) :
    ∀ (s : List ChunkPoint) (k : Nat),
      countByIrvId (removeMatching s irv k) irv = countByIrvId s irv - k
  | [], k => by
    rw [removeMatching]
    show countByIrvId [] irv = countByIrvId [] irv - k
    show (0 : Nat) = 0 - k
    omega
  | p :: t, k => by
    rw [removeMatching]
    by_cases hp : p.irvId = irv
    · rw [if_pos hp]
      by_cases hk : k = 0
      · rw [if_pos hk, hk, countByIrvId_cons, countByIrvId_cons, if_pos hp,
          countByIrvId_removeMatching irv t 0]
        omega
      · rw [if_neg hk, countByIrvId_removeMatching irv t (k - 1), countByIrvId_cons,
          if_pos hp]
        omega
    · rw [if_neg hp, countByIrvId_cons, if_neg hp,
        countByIrvId_removeMatching irv t k, countByIrvId_cons, if_neg hp]
      omega

theorem countByIrvId_delete (s : List ChunkPoint) (irv : String) :
    countByIrvId (deletePointsByIrvId s irv) irv = countByIrvId s irv - 10000 :=
  countByIrvId_removeMatching irv s 10000

theorem mem_buildPoints {p : ChunkPoint} {irv : String} {chunks : List (List Char)}
    {g : Nat → String} (h : p ∈ buildPoints irv chunks g) : p.irvId = irv := by
  unfold buildPoints at h
  generalize List.range chunks.length = rng at h
  induction rng generalizing chunks with
  | nil => simp at h
  | cons i it ih =>
    cases chunks with
    | nil => simp at h
    | cons c ct =>
      rcases List.mem_cons.mp h with rfl | h2
      · rfl
      · exact ih h2

theorem countByIrvId_buildPoints (irv : String) (chunks : List (List Char))
    (g : Nat → String) : countByIrvId (buildPoints irv chunks g) irv = chunks.length := by
  unfold countByIrvId
  rw [List.filter_eq_self.mpr fun p hp => by simp [mem_buildPoints hp]]
  unfold buildPoints
  rw [List.length_zipWith]
  simp

theorem countByIrvId_append (a b : List ChunkPoint) (irv : String) :
    countByIrvId (a ++ b) irv = countByIrvId a irv + countByIrvId b irv := by
  simp [countByIrvId, List.filter_append]

theorem handleQdrantConnectionError_code (m t : String) :
    (handleQdrantConnectionError m t).code = "qdrant_timeout"
      ∨ (handleQdrantConnectionError m t).code = "qdrant_connection_error"
      ∨ (handleQdrantConnectionError m t).code = "qdrant_error" := by
  unfold handleQdrantConnectionError
  split_ifs <;> simp

theorem deleteBatchesLoop_shape (del : Nat → QdrantOp Unit) :
    ∀ (bs : List (List String)) (i acc : Nat),
      (∃ n, deleteBatchesLoop del bs i acc = .ok n)
        ∨ ∃ m t, deleteBatchesLoop del bs i acc = .error (handleQdrantConnectionError m t)
  | [], _, acc => Or.inl ⟨acc, rfl⟩
  | b :: bs, i, acc => by
    unfold deleteBatchesLoop
    cases hdel : del i with
    | ok v => exact deleteBatchesLoop_shape del bs (i + 1) (acc + b.length)
    | exn m t => exact Or.inr ⟨m, t, rfl⟩

/-- C1 (amended): re-running the add operation with the same `irv_id` and
unchanged chunks leaves the point count for the document unchanged,
provided the stored matching points fit in the single scroll page of at
most 10000 ids that `_delete_chunks_by_irv_id` fetches (it never
paginates, so beyond one page stale points survive the pre-delete); and a
failure of the pre-delete aborts the insertion: every failure path of
`_delete_chunks_by_irv_id` raises a `ServiceError` (code `qdrant_timeout`,
`qdrant_connection_error` or `qdrant_error`), which `add_files_to_rag`
re-raises; only a non-`ServiceError` exception, which the delete helper
never produces, would be logged and swallowed. -/
theorem add_idempotent_and_predelete (store : List ChunkPoint) (irv : String)
    (chunks : List (List Char)) (g g2 : Nat → String)
    (hs : countByIrvId store irv ≤ 10000) (hc : chunks.length ≤ 10000) :
    countByIrvId (addFilesStore store irv chunks g) irv = chunks.length
      ∧ countByIrvId (addFilesStore (addFilesStore store irv chunks g) irv chunks g2) irv
          = countByIrvId (addFilesStore store irv chunks g) irv
      ∧ (∀ (scroll : QdrantOp (List String)) (del : Nat → QdrantOp Unit) (e : ServiceErrorS),
          deleteChunksByIrvId scroll del = .error e →
            addProceedsAfterPreDelete scroll del = false)
      ∧ (∀ (scroll : QdrantOp (List String)) (del : Nat → QdrantOp Unit),
          (∃ n, deleteChunksByIrvId scroll del = .ok n)
            ∨ ∃ e, deleteChunksByIrvId scroll del = .error e
                ∧ (e.code = "qdrant_timeout" ∨ e.code = "qdrant_connection_error"
                    ∨ e.code = "qdrant_error")) := by
  have hcount : ∀ (s : List ChunkPoint) (gen : Nat → String), countByIrvId s irv ≤ 10000 →
      countByIrvId (addFilesStore s irv chunks gen) irv = chunks.length :=
    fun s gen hle => by
      unfold addFilesStore
      rw [countByIrvId_append, countByIrvId_delete, countByIrvId_buildPoints]
      omega
  have h1 := hcount store g hs
  refine ⟨h1, ?_, ?_, ?_⟩
  · rw [hcount _ g2 (by rw [h1]; exact hc), h1]
  · intro scroll del e he
    unfold addProceedsAfterPreDelete
    rw [he]
  · intro scroll del
    cases scroll with
    | exn m t =>
      exact Or.inr ⟨handleQdrantConnectionError m t, rfl, handleQdrantConnectionError_code m t⟩
    | ok pts =>
      by_cases hp : pts = []
      · subst hp
        exact Or.inl ⟨0, rfl⟩
      · rcases deleteBatchesLoop_shape del (batchesOf 1000 pts) 0 0 with ⟨n, hn⟩ | ⟨m, t, ht⟩
        · refine Or.inl ⟨n, ?_⟩
          show (if pts = [] then Except.ok 0
            else deleteBatchesLoop del (batchesOf 1000 pts) 0 0) = _
          rw [if_neg hp, hn]
        · refine Or.inr ⟨handleQdrantConnectionError m t, ?_,
            handleQdrantConnectionError_code m t⟩
          show (if pts = [] then Except.ok 0
            else deleteBatchesLoop del (batchesOf 1000 pts) 0 0) = _
          rw [if_neg hp, ht]

/-- Witness for C1 at concrete inputs: one stored stale point for the
document (within the 10000-id scroll page), two fresh chunks, and a
concrete failing scroll. -/
theorem add_idempotent_and_predelete_witness :
    countByIrvId [(⟨"old", "doc", ['x']⟩ : ChunkPoint)] "doc" ≤ 10000
      ∧ countByIrvId (addFilesStore [⟨"old", "doc", ['x']⟩] "doc" [['a'], ['b']]
          (fun _ => "p")) "doc" = 2
      ∧ addProceedsAfterPreDelete (QdrantOp.exn "connection refused" "ConnectionError")
          (fun _ => QdrantOp.ok ()) = false := by
  have h := add_idempotent_and_predelete [⟨"old", "doc", ['x']⟩] "doc" [['a'], ['b']]
    (fun _ => "p") (fun _ => "q") (by decide) (by decide)
  refine ⟨by decide, h.1, ?_⟩
  exact h.2.2.1 (QdrantOp.exn "connection refused" "ConnectionError") (fun _ => QdrantOp.ok ())
    ⟨"qdrant_connection_error"⟩ (by rfl)

/-- C1 counterexample: the claim says a pre-delete failure "does not abort
the insertion (it is only logged)", but at this concrete input — the
pre-delete scroll raising a timeout — the delete helper raises a
`ServiceError` with code `qdrant_timeout` and `add_files_to_rag` re-raises
it, so the insertion does not proceed; and with 10001 stored points for
the document the single 10000-id scroll page leaves one stale point
behind, so the unconditional idempotence clause fails as well. -/
theorem predelete_failure_aborts_counterexample :
    deleteChunksByIrvId (QdrantOp.exn "connection timeout" "TimeoutException")
        (fun _ => QdrantOp.ok ()) = .error ⟨"qdrant_timeout"⟩
      ∧ addProceedsAfterPreDelete (QdrantOp.exn "connection timeout" "TimeoutException")
          (fun _ => QdrantOp.ok ()) = false
      ∧ countByIrvId (deletePointsByIrvId
          (List.replicate 10001 (⟨"p", "doc", []⟩ : ChunkPoint)) "doc") "doc" = 1 := by
  refine ⟨rfl, rfl, ?_⟩
  have hrep : ∀ n : Nat,
      countByIrvId (List.replicate n (⟨"p", "doc", []⟩ : ChunkPoint)) "doc" = n := by
    intro n
    induction n with
    | zero => rfl
    | succ m ih =>
      rw [List.replicate_succ, countByIrvId_cons, ih, if_pos rfl]
      omega
  rw [countByIrvId_delete, hrep]

/-! ### C5: phase retry policy -/

theorem phaseCall_classes (o : PhaseCallOutcome) :
    (isNonRetryable o = true → isRetryableFailure o = false)
      ∧ (isNonRetryable PhaseCallOutcome.success = false)
      ∧ (isRetryableFailure PhaseCallOutcome.success = false) := by
  cases o <;> simp [isNonRetryable, isRetryableFailure]

theorem phaseRunFrom_nonretryable (oracle : Nat → PhaseCallOutcome) (maxRetries : Nat) :
    ∀ (k attempt i : Nat), attempt + k = i → i < maxRetries →
      (∀ j, attempt ≤ j → j < i → isRetryableFailure (oracle j) = true) →
      isNonRetryable (oracle i) = true →
      phaseRunFrom oracle maxRetries attempt
        = (.error (PhaseError.nonRetryable (oracle i)), k + 1)
  | 0, attempt, i, hk, hi, _, hnr => by
    obtain rfl : attempt = i := by omega
    unfold phaseRunFrom
    rw [if_neg (by omega)]
    cases ho : oracle attempt <;> rw [ho] at hnr <;>
      first
      | (simp [isNonRetryable] at hnr; done)
      | simp [isNonRetryable]
  | k + 1, attempt, i, hk, hi, hretry, hnr => by
    have hlt : attempt < i := by omega
    have hra : isRetryableFailure (oracle attempt) = true :=
      hretry attempt (Nat.le_refl _) hlt
    have ih := phaseRunFrom_nonretryable oracle maxRetries k (attempt + 1) i (by omega) hi
      (fun j hj1 hj2 => hretry j (by omega) hj2) hnr
    unfold phaseRunFrom
    rw [if_neg (by omega)]
    cases ho : oracle attempt <;>
      first
      | (rw [ho] at hra; simp [isRetryableFailure] at hra; done)
      | (simp only [isNonRetryable]
         rw [if_neg (by simp), if_pos (show attempt < maxRetries - 1 by omega), ih])

theorem phaseRunFrom_all_retryable (oracle : Nat → PhaseCallOutcome) (maxRetries : Nat) :
    ∀ (k attempt : Nat), attempt + k + 1 = maxRetries →
      (∀ j, attempt ≤ j → j < maxRetries → isRetryableFailure (oracle j) = true) →
      phaseRunFrom oracle maxRetries attempt
        = (.error (PhaseError.afterRetries (oracle (maxRetries - 1))), k + 1)
  | 0, attempt, hk, hretry => by
    have hlast : attempt = maxRetries - 1 := by omega
    have hra : isRetryableFailure (oracle attempt) = true :=
      hretry attempt (Nat.le_refl _) (by omega)
    unfold phaseRunFrom
    rw [if_neg (by omega)]
    cases ho : oracle attempt <;>
      first
      | (rw [ho] at hra; simp [isRetryableFailure] at hra; done)
      | (simp only [isNonRetryable]
         rw [if_neg (by simp), if_neg (show ¬attempt < maxRetries - 1 by omega), ← hlast, ho])
  | k + 1, attempt, hk, hretry => by
    have hra : isRetryableFailure (oracle attempt) = true :=
      hretry attempt (Nat.le_refl _) (by omega)
    have ih := phaseRunFrom_all_retryable oracle maxRetries k (attempt + 1) (by omega)
      (fun j hj1 hj2 => hretry j (by omega) hj2)
    unfold phaseRunFrom
    rw [if_neg (by omega)]
    cases ho : oracle attempt <;>
      first
      | (rw [ho] at hra; simp [isRetryableFailure] at hra; done)
      | (simp only [isNonRetryable]
         rw [if_neg (by simp), if_pos (show attempt < maxRetries - 1 by omega), ih])

/-- C5: in both the reasoning phase and the action-selection phase, an
authentication, rate-limit or bad-request error from the provider at some
attempt `i` (after retryable failures on the earlier attempts) surfaces
immediately — exactly `i + 1` LLM calls, no further retry — while a run of
retryable failures (transport, timeout, generic provider error, unexpected
exception) is retried up to the bounded attempt count: exactly
`max_retries` calls, then the phase fails with the last error. -/
theorem phase_retry_policy (oracle : Nat → PhaseCallOutcome) (maxRetries i : Nat) :
    (i < maxRetries → (∀ j, j < i → isRetryableFailure (oracle j) = true) →
      isNonRetryable (oracle i) = true →
        reasoningPhase oracle maxRetries = (.error (PhaseError.nonRetryable (oracle i)), i + 1)
          ∧ selectActionPhase oracle maxRetries
            = (.error (PhaseError.nonRetryable (oracle i)), i + 1))
      ∧ (1 ≤ maxRetries →
          (∀ j, j < maxRetries → isRetryableFailure (oracle j) = true) →
          reasoningPhase oracle maxRetries
              = (.error (PhaseError.afterRetries (oracle (maxRetries - 1))), maxRetries)
            ∧ selectActionPhase oracle maxRetries
              = (.error (PhaseError.afterRetries (oracle (maxRetries - 1))), maxRetries)) := by
  constructor
  · intro hi hr hnr
    have h := phaseRunFrom_nonretryable oracle maxRetries i 0 i (by omega) hi
      (fun j _ hj => hr j hj) hnr
    exact ⟨h, h⟩
  · intro hmr hr
    have h := phaseRunFrom_all_retryable oracle maxRetries (maxRetries - 1) 0 (by omega)
      (fun j _ hj => hr j hj)
    rw [show maxRetries - 1 + 1 = maxRetries from by omega] at h
    exact ⟨h, h⟩

/-- Witness for C5 at a concrete oracle: a timeout on attempt 0 followed by
an auth error on attempt 1 surfaces after exactly 2 calls; an oracle that
always times out exhausts all 3 default attempts. -/
theorem phase_retry_policy_witness :
    reasoningPhase (fun j => if j = 1 then PhaseCallOutcome.authError "bad key"
        else PhaseCallOutcome.timeoutError "slow") 3
      = (.error (PhaseError.nonRetryable (PhaseCallOutcome.authError "bad key")), 2)
      ∧ reasoningPhase (fun _ => PhaseCallOutcome.timeoutError "slow") 3
        = (.error (PhaseError.afterRetries (PhaseCallOutcome.timeoutError "slow")), 3) := by
  have h1 := (phase_retry_policy (fun j => if j = 1 then PhaseCallOutcome.authError "bad key"
    else PhaseCallOutcome.timeoutError "slow") 3 1).1 (by omega)
    (by decide) (by decide)
  have h2 := (phase_retry_policy (fun _ => PhaseCallOutcome.timeoutError "slow") 3 0).2
    (by omega) (by intro j _; rfl)
  exact ⟨by simpa using h1.1, by simpa using h2.1⟩

/-! ### C2: the agent loop is bounded by `max_iterations` -/

theorem executeLoop_terminal (maxIterations : Nat) (reasonFail : Nat → Option String)
    (action : Nat → ActionOutcome) (fuel : Nat) (ctx : AgentContext)
    (h : ctx.state ∈ finishStates) :
    executeLoop maxIterations reasonFail action fuel ctx = ctx := by
  cases fuel with
  | zero => rfl
  | succ f => simp [executeLoop, h]

theorem executeLoop_reaches (maxIterations : Nat) (reasonFail : Nat → Option String)
    (action : Nat → ActionOutcome) :
    ∀ (fuel : Nat) (ctx : AgentContext),
      (ctx.state ∈ finishStates ∧ ctx.iteration ≤ maxIterations)
        ∨ (ctx.iteration < maxIterations ∧ maxIterations ≤ ctx.iteration + fuel) →
      (executeLoop maxIterations reasonFail action fuel ctx).state ∈ finishStates
        ∧ (executeLoop maxIterations reasonFail action fuel ctx).iteration
            ≤ maxIterations := by
  intro fuel
  induction fuel with
  | zero =>
    intro ctx h
    rcases h with ⟨h1, h2⟩ | ⟨h1, h2⟩
    · exact ⟨h1, h2⟩
    · omega
  | succ f ih =>
    intro ctx h
    by_cases hterm : ctx.state ∈ finishStates
    · rw [executeLoop_terminal _ _ _ _ _ hterm]
      rcases h with ⟨_, h2⟩ | ⟨h1, _⟩
      · exact ⟨hterm, h2⟩
      · exact ⟨hterm, by omega⟩
    · rcases h with ⟨h1, _⟩ | ⟨h1, h2⟩
      · exact absurd h1 hterm
      · rw [executeLoop, if_neg hterm]
        cases hr : reasonFail (ctx.iteration + 1) with
        | some m =>
          simp only [executionStep, hr]
          exact ⟨by simp [finishStates], by omega⟩
        | none =>
          by_cases hcap : maxIterations ≤ ctx.iteration + 1
          · simp only [executionStep, hr, hcap, if_true]
            exact ⟨by simp [finishStates], by omega⟩
          · cases ha : action (ctx.iteration + 1) with
            | finalAnswer ans =>
              simp only [executionStep, hr, hcap, if_false, ha]
              exact ih ⟨AgentState.completed, ctx.iteration + 1, some ans⟩
                (Or.inl ⟨by simp [finishStates],
                  by show ctx.iteration + 1 ≤ maxIterations; omega⟩)
            | otherTool =>
              simp only [executionStep, hr, hcap, if_false, ha]
              exact ih ⟨ctx.state, ctx.iteration + 1, ctx.executionResult⟩
                (Or.inr ⟨by show ctx.iteration + 1 < maxIterations; omega,
                  by show maxIterations ≤ ctx.iteration + 1 + f; omega⟩)
            | raiseErr m =>
              simp only [executionStep, hr, hcap, if_false, ha]
              exact ⟨by simp [finishStates], by omega⟩

theorem executeLoop_all_other (maxIterations : Nat) :
    ∀ (fuel i : Nat), i < maxIterations → maxIterations ≤ i + fuel →
      executeLoop maxIterations (fun _ => none) (fun _ => ActionOutcome.otherTool) fuel
          ⟨AgentState.researching, i, none⟩
        = ⟨AgentState.failed, maxIterations, none⟩ := by
  intro fuel
  induction fuel with
  | zero => intro i h1 h2; omega
  | succ f ih =>
    intro i h1 h2
    rw [executeLoop, if_neg (by simp [finishStates])]
    by_cases hcap : maxIterations ≤ i + 1
    · have heq : i + 1 = maxIterations := by omega
      simp only [executionStep, hcap, if_true]
      simp [heq]
    · simp only [executionStep, hcap, if_false]
      exact ih (i + 1) (by omega) (by omega)

/-- C2 (amended): for every iteration cap `max_iterations ≥ 1` (the config
requires it positive) and every behaviour of the reasoning and action
phases, `execute` terminates in a terminal state with the iteration
counter at most `max_iterations`; when the model never produces a final
answer and the phases never raise, the cap is reached at exactly
`max_iterations` and the agent ends `failed` — but `execute`'s exception
handler sets only the state, so `execution_result` stays unset (`none`)
rather than carrying the last error or a cap message. -/
theorem agent_loop_bounded (maxIterations : Nat) (reasonFail : Nat → Option String)
    (action : Nat → ActionOutcome) (h : 1 ≤ maxIterations) :
    ((execute maxIterations reasonFail action).state = AgentState.completed
        ∨ (execute maxIterations reasonFail action).state = AgentState.failed)
      ∧ (execute maxIterations reasonFail action).iteration ≤ maxIterations
      ∧ (execute maxIterations (fun _ => none) (fun _ => ActionOutcome.otherTool)
          = ⟨AgentState.failed, maxIterations, none⟩) := by
  have hmain := executeLoop_reaches maxIterations reasonFail action (maxIterations + 1)
    initialAgentContext (Or.inr ⟨by show (0 : Nat) < maxIterations; omega,
      by show maxIterations ≤ 0 + (maxIterations + 1); omega⟩)
  refine ⟨?_, hmain.2, ?_⟩
  · have := hmain.1
    simp only [finishStates, List.mem_cons, List.mem_singleton] at this
    rcases this with h1 | h1 | h1
    · exact Or.inl h1
    · exact Or.inr h1
    · simp at h1
  · exact executeLoop_all_other maxIterations (maxIterations + 1) 0 (by omega) (by omega)

/-- Witness for C2 at `max_iterations = 2` with phases that never finish:
the agent ends `failed` at iteration 2 with no execution result. -/
theorem agent_loop_bounded_witness :
    ((execute 2 (fun _ => none) (fun _ => ActionOutcome.otherTool)).state
          = AgentState.completed
        ∨ (execute 2 (fun _ => none) (fun _ => ActionOutcome.otherTool)).state
          = AgentState.failed)
      ∧ (execute 2 (fun _ => none) (fun _ => ActionOutcome.otherTool)).iteration ≤ 2
      ∧ execute 2 (fun _ => none) (fun _ => ActionOutcome.otherTool)
          = ⟨AgentState.failed, 2, none⟩ :=
  agent_loop_bounded 2 (fun _ => none) (fun _ => ActionOutcome.otherTool) (by omega)

/-- C2 counterexample: the claim says the cap-reached run ends with "the
last error or a cap message as the execution result", but at
`max_iterations = 1` with phases that never finish the loop ends `failed`
with `execution_result = none`: the cap error is caught by `execute`'s
handler, which sets only the state and logs the message. -/
theorem agent_cap_result_unset_counterexample :
    (execute 1 (fun _ => none) (fun _ => ActionOutcome.otherTool)).state = AgentState.failed
      ∧ (execute 1 (fun _ => none) (fun _ => ActionOutcome.otherTool)).executionResult
        = none := by
  have h := executeLoop_all_other 1 (1 + 1) 0 (by omega) (by omega)
  unfold execute initialAgentContext
  rw [h]
  exact ⟨rfl, rfl⟩

/-! ### C4: the hybrid merge as a union by id -/

theorem dedupById_cons (r : RetrievalResult) (rs : List RetrievalResult) (seen : List String) :
    dedupById (r :: rs) seen = match r.rid with
      | none => dedupById rs seen
      | some s =>
        if s = "" then dedupById rs seen
        else if s ∈ seen then dedupById rs seen
        else r :: dedupById rs (s :: seen) := rfl

theorem dedupById_cons_none {r : RetrievalResult} (rs : List RetrievalResult)
    (seen : List String) (h : r.rid = none) :
    dedupById (r :: rs) seen = dedupById rs seen := by
  rw [dedupById_cons, h]

theorem dedupById_cons_skip {r : RetrievalResult} {a : String} (rs : List RetrievalResult)
    (seen : List String) (h : r.rid = some a) (h2 : a = "" ∨ a ∈ seen) :
    dedupById (r :: rs) seen = dedupById rs seen := by
  rw [dedupById_cons, h]
  show (if a = "" then dedupById rs seen
    else if a ∈ seen then dedupById rs seen
    else r :: dedupById rs (a :: seen)) = dedupById rs seen
  rcases h2 with h2 | h2
  · rw [if_pos h2]
  · by_cases hmt : a = ""
    · rw [if_pos hmt]
    · rw [if_neg hmt, if_pos h2]

theorem dedupById_cons_keep {r : RetrievalResult} {a : String} (rs : List RetrievalResult)
    (seen : List String) (h : r.rid = some a) (h1 : ¬a = "") (h2 : ¬a ∈ seen) :
    dedupById (r :: rs) seen = r :: dedupById rs (a :: seen) := by
  rw [dedupById_cons, h]
  show (if a = "" then dedupById rs seen
    else if a ∈ seen then dedupById rs seen
    else r :: dedupById rs (a :: seen)) = r :: dedupById rs (a :: seen)
  rw [if_neg h1, if_neg h2]

theorem dedupById_congr : ∀ (rs : List RetrievalResult) (s1 s2 : List String),
    (∀ a, a ∈ s1 ↔ a ∈ s2) → dedupById rs s1 = dedupById rs s2
  | [], _, _, _ => rfl
  | r :: rs, s1, s2, h => by
    cases hr : r.rid with
    | none =>
      rw [dedupById_cons_none rs s1 hr, dedupById_cons_none rs s2 hr]
      exact dedupById_congr rs s1 s2 h
    | some a =>
      by_cases ha : a = ""
      · rw [dedupById_cons_skip rs s1 hr (Or.inl ha), dedupById_cons_skip rs s2 hr (Or.inl ha)]
        exact dedupById_congr rs s1 s2 h
      · by_cases hmem : a ∈ s1
        · rw [dedupById_cons_skip rs s1 hr (Or.inr hmem),
            dedupById_cons_skip rs s2 hr (Or.inr ((h a).mp hmem))]
          exact dedupById_congr rs s1 s2 h
        · rw [dedupById_cons_keep rs s1 hr ha hmem,
            dedupById_cons_keep rs s2 hr ha (fun hc => hmem ((h a).mpr hc))]
          rw [dedupById_congr rs (a :: s1) (a :: s2) (by intro b; simp [h b])]

theorem dedupById_idem_append : ∀ (xs ys : List RetrievalResult) (s : List String),
    dedupById (dedupById xs s ++ ys) s = dedupById (xs ++ ys) s
  | [], _, _ => rfl
  | r :: xs, ys, s => by
    rw [List.cons_append]
    cases hr : r.rid with
    | none =>
      rw [dedupById_cons_none xs s hr, dedupById_cons_none (xs ++ ys) s hr]
      exact dedupById_idem_append xs ys s
    | some a =>
      by_cases ha : a = ""
      · rw [dedupById_cons_skip xs s hr (Or.inl ha),
          dedupById_cons_skip (xs ++ ys) s hr (Or.inl ha)]
        exact dedupById_idem_append xs ys s
      · by_cases hmem : a ∈ s
        · rw [dedupById_cons_skip xs s hr (Or.inr hmem),
            dedupById_cons_skip (xs ++ ys) s hr (Or.inr hmem)]
          exact dedupById_idem_append xs ys s
        · rw [dedupById_cons_keep xs s hr ha hmem, List.cons_append,
            dedupById_cons_keep (dedupById xs (a :: s) ++ ys) s hr ha hmem,
            dedupById_cons_keep (xs ++ ys) s hr ha hmem,
            dedupById_idem_append xs ys (a :: s)]

theorem dedupById_dedupById : ∀ (ys : List RetrievalResult) (t s : List String),
    dedupById (dedupById ys t) s = dedupById ys (s ++ t)
  | [], _, _ => rfl
  | r :: ys, t, s => by
    cases hr : r.rid with
    | none =>
      rw [dedupById_cons_none ys t hr, dedupById_cons_none ys (s ++ t) hr]
      exact dedupById_dedupById ys t s
    | some a =>
      by_cases ha : a = ""
      · rw [dedupById_cons_skip ys t hr (Or.inl ha),
          dedupById_cons_skip ys (s ++ t) hr (Or.inl ha)]
        exact dedupById_dedupById ys t s
      · by_cases ht : a ∈ t
        · rw [dedupById_cons_skip ys t hr (Or.inr ht),
            dedupById_cons_skip ys (s ++ t) hr (Or.inr (by simp [ht]))]
          exact dedupById_dedupById ys t s
        · rw [dedupById_cons_keep ys t hr ha ht]
          by_cases hs : a ∈ s
          · rw [dedupById_cons_skip (dedupById ys (a :: t)) s hr (Or.inr hs),
              dedupById_cons_skip ys (s ++ t) hr (Or.inr (by simp [hs])),
              dedupById_dedupById ys (a :: t) s]
            exact dedupById_congr ys (s ++ a :: t) (s ++ t)
              (by intro b; by_cases hb : b = a <;> simp [hb, hs])
          · rw [dedupById_cons_keep (dedupById ys (a :: t)) s hr ha hs,
              dedupById_cons_keep ys (s ++ t) hr ha (by simp [hs, ht]),
              dedupById_dedupById ys (a :: t) (a :: s)]
            rw [dedupById_congr ys (a :: s ++ a :: t) (a :: (s ++ t))
              (by intro b; by_cases hb : b = a <;> simp [hb])]

theorem dedupById_append_dedup : ∀ (xs ys : List RetrievalResult) (s : List String),
    dedupById (xs ++ dedupById ys []) s = dedupById (xs ++ ys) s
  | [], ys, s => by
    simp only [List.nil_append]
    rw [dedupById_dedupById ys [] s]
    exact dedupById_congr ys (s ++ []) s (by intro b; simp)
  | r :: xs, ys, s => by
    rw [List.cons_append, List.cons_append]
    cases hr : r.rid with
    | none =>
      rw [dedupById_cons_none (xs ++ dedupById ys []) s hr,
        dedupById_cons_none (xs ++ ys) s hr]
      exact dedupById_append_dedup xs ys s
    | some a =>
      by_cases ha : a = ""
      · rw [dedupById_cons_skip (xs ++ dedupById ys []) s hr (Or.inl ha),
          dedupById_cons_skip (xs ++ ys) s hr (Or.inl ha)]
        exact dedupById_append_dedup xs ys s
      · by_cases hmem : a ∈ s
        · rw [dedupById_cons_skip (xs ++ dedupById ys []) s hr (Or.inr hmem),
            dedupById_cons_skip (xs ++ ys) s hr (Or.inr hmem)]
          exact dedupById_append_dedup xs ys s
        · rw [dedupById_cons_keep (xs ++ dedupById ys []) s hr ha hmem,
            dedupById_cons_keep (xs ++ ys) s hr ha hmem,
            dedupById_append_dedup xs ys (a :: s)]

theorem dedupById_mem_ids : ∀ (rs : List RetrievalResult) (seen : List String) (a : String),
    (∃ r ∈ dedupById rs seen, r.rid = some a)
      ↔ (¬a ∈ seen ∧ ¬a = "" ∧ ∃ r ∈ rs, r.rid = some a)
  | [], seen, a => by simp [dedupById]
  | r :: rs, seen, a => by
    cases hr : r.rid with
    | none =>
      rw [dedupById_cons_none rs seen hr, dedupById_mem_ids rs seen a]
      constructor
      · rintro ⟨hs, he, x, hx, hxa⟩
        exact ⟨hs, he, x, by simp [hx], hxa⟩
      · rintro ⟨hs, he, x, hx, hxa⟩
        rcases List.mem_cons.mp hx with rfl | hx2
        · rw [hr] at hxa; cases hxa
        · exact ⟨hs, he, x, hx2, hxa⟩
    | some b =>
      by_cases hb : b = ""
      · rw [dedupById_cons_skip rs seen hr (Or.inl hb), dedupById_mem_ids rs seen a]
        constructor
        · rintro ⟨hs, he, x, hx, hxa⟩
          exact ⟨hs, he, x, by simp [hx], hxa⟩
        · rintro ⟨hs, he, x, hx, hxa⟩
          rcases List.mem_cons.mp hx with rfl | hx2
          · rw [hr] at hxa
            cases hxa
            exact absurd hb (by simpa using he)
          · exact ⟨hs, he, x, hx2, hxa⟩
      · by_cases hmem : b ∈ seen
        · rw [dedupById_cons_skip rs seen hr (Or.inr hmem), dedupById_mem_ids rs seen a]
          constructor
          · rintro ⟨hs, he, x, hx, hxa⟩
            exact ⟨hs, he, x, by simp [hx], hxa⟩
          · rintro ⟨hs, he, x, hx, hxa⟩
            rcases List.mem_cons.mp hx with rfl | hx2
            · rw [hr] at hxa
              cases hxa
              exact absurd hmem hs
            · exact ⟨hs, he, x, hx2, hxa⟩
        · rw [dedupById_cons_keep rs seen hr hb hmem]
          by_cases hab : a = b
          · subst hab
            constructor
            · intro _
              exact ⟨hmem, hb, r, by simp, hr⟩
            · intro _
              exact ⟨r, by simp, hr⟩
          · constructor
            · rintro ⟨x, hx, hxa⟩
              rcases List.mem_cons.mp hx with rfl | hx2
              · rw [hr] at hxa
                cases hxa
                exact absurd rfl hab
              · have := (dedupById_mem_ids rs (b :: seen) a).mp ⟨x, hx2, hxa⟩
                refine ⟨fun hs => this.1 (by simp [hs]), this.2.1, ?_⟩
                obtain ⟨y, hy, hya⟩ := this.2.2
                exact ⟨y, by simp [hy], hya⟩
            · rintro ⟨hs, he, x, hx, hxa⟩
              rcases List.mem_cons.mp hx with rfl | hx2
              · rw [hr] at hxa
                cases hxa
                exact absurd rfl hab
              · have := (dedupById_mem_ids rs (b :: seen) a).mpr
                  ⟨by simp [hab, hs], he, x, hx2, hxa⟩
                obtain ⟨y, hy, hya⟩ := this
                exact ⟨y, by simp [hy], hya⟩

theorem dedupById_first_seen : ∀ (rs : List RetrievalResult) (seen : List String)
    (r : RetrievalResult), r ∈ dedupById rs seen →
    ∃ s, r.rid = some s ∧ ¬s = "" ∧ ¬s ∈ seen
      ∧ rs.find? (fun x => decide (x.rid = r.rid)) = some r
  | [], _, _, h => by simp [dedupById] at h
  | q :: rs, seen, r, h => by
    cases hq : q.rid with
    | none =>
      rw [dedupById_cons_none rs seen hq] at h
      obtain ⟨s, hs1, hs2, hs3, hs4⟩ := dedupById_first_seen rs seen r h
      refine ⟨s, hs1, hs2, hs3, ?_⟩
      rw [List.find?_cons_of_neg _ (by simp [hq, hs1]), hs4]
    | some b =>
      by_cases hb : b = ""
      · rw [dedupById_cons_skip rs seen hq (Or.inl hb)] at h
        obtain ⟨s, hs1, hs2, hs3, hs4⟩ := dedupById_first_seen rs seen r h
        refine ⟨s, hs1, hs2, hs3, ?_⟩
        refine Eq.trans (List.find?_cons_of_neg _ ?_) hs4
        simp only [hq, hs1, decide_eq_true_eq]
        rintro ⟨rfl⟩
        exact hs2 hb
      · by_cases hmem : b ∈ seen
        · rw [dedupById_cons_skip rs seen hq (Or.inr hmem)] at h
          obtain ⟨s, hs1, hs2, hs3, hs4⟩ := dedupById_first_seen rs seen r h
          refine ⟨s, hs1, hs2, hs3, ?_⟩
          refine Eq.trans (List.find?_cons_of_neg _ ?_) hs4
          simp only [hq, hs1, decide_eq_true_eq]
          rintro ⟨rfl⟩
          exact hs3 hmem
        · rw [dedupById_cons_keep rs seen hq hb hmem] at h
          rcases List.mem_cons.mp h with rfl | h2
          · exact ⟨b, hq, hb, hmem, List.find?_cons_of_pos _ (by simp)⟩
          · obtain ⟨s, hs1, hs2, hs3, hs4⟩ := dedupById_first_seen rs (b :: seen) r h2
            refine ⟨s, hs1, hs2, fun hc => hs3 (by simp [hc]), ?_⟩
            refine Eq.trans (List.find?_cons_of_neg _ ?_) hs4
            simp only [hq, hs1, decide_eq_true_eq]
            rintro ⟨rfl⟩
            exact hs3 (by simp)

theorem dedupById_ids_nodup : ∀ (rs : List RetrievalResult) (seen : List String),
    ((dedupById rs seen).map RetrievalResult.rid).Nodup
  | [], _ => by simp [dedupById]
  | r :: rs, seen => by
    cases hr : r.rid with
    | none =>
      rw [dedupById_cons_none rs seen hr]
      exact dedupById_ids_nodup rs seen
    | some b =>
      by_cases hb : b = ""
      · rw [dedupById_cons_skip rs seen hr (Or.inl hb)]
        exact dedupById_ids_nodup rs seen
      · by_cases hmem : b ∈ seen
        · rw [dedupById_cons_skip rs seen hr (Or.inr hmem)]
          exact dedupById_ids_nodup rs seen
        · rw [dedupById_cons_keep rs seen hr hb hmem]
          rw [List.map_cons, List.nodup_cons, hr]
          refine ⟨?_, dedupById_ids_nodup rs (b :: seen)⟩
          intro hc
          obtain ⟨x, hx, hxb⟩ := List.mem_map.mp hc
          have := (dedupById_mem_ids rs (b :: seen) b).mp ⟨x, hx, by rw [hxb]⟩
          exact this.1 (by simp)

/-- C4: the hybrid merge is a union by point id — duplicate ids collapse to
a single entry and the kept entry is the first-seen occurrence in
`vector_results + text_results`; the merge is commutative in its two
inputs under the union-by-id rule (the same set of ids survives in either
order) and associative as an operation on result lists. -/
theorem hybrid_merge_union_by_id :
    (∀ (a b : List RetrievalResult) (r : RetrievalResult), r ∈ hybridSearchMerge a b →
        ∃ s, r.rid = some s ∧ ¬s = ""
          ∧ (a ++ b).find? (fun x => decide (x.rid = r.rid)) = some r)
      ∧ (∀ a b : List RetrievalResult, ((hybridSearchMerge a b).map RetrievalResult.rid).Nodup)
      ∧ (∀ (a b : List RetrievalResult) (s : String),
          (∃ r ∈ hybridSearchMerge a b, r.rid = some s)
            ↔ ∃ r ∈ hybridSearchMerge b a, r.rid = some s)
      ∧ (∀ a b c : List RetrievalResult,
          hybridSearchMerge (hybridSearchMerge a b) c
            = hybridSearchMerge a (hybridSearchMerge b c)) := by
  refine ⟨?_, ?_, ?_, ?_⟩
  · intro a b r h
    obtain ⟨s, hs1, hs2, _, hs4⟩ := dedupById_first_seen (a ++ b) [] r h
    exact ⟨s, hs1, hs2, hs4⟩
  · intro a b
    exact dedupById_ids_nodup (a ++ b) []
  · intro a b s
    rw [hybridSearchMerge, hybridSearchMerge, dedupById_mem_ids, dedupById_mem_ids]
    constructor
    · rintro ⟨h1, h2, x, hx, hxa⟩
      exact ⟨h1, h2, x, by rw [List.mem_append] at hx ⊢; tauto, hxa⟩
    · rintro ⟨h1, h2, x, hx, hxa⟩
      exact ⟨h1, h2, x, by rw [List.mem_append] at hx ⊢; tauto, hxa⟩
  · intro a b c
    unfold hybridSearchMerge
    rw [dedupById_idem_append, dedupById_append_dedup, List.append_assoc]

/-- Witness for C4 at concrete inputs: the shared id `"1"` collapses to its
first-seen entry, and the id sets of both merge orders agree. -/
theorem hybrid_merge_union_by_id_witness :
    (∃ s, (⟨some "1", ['a'], 1⟩ : RetrievalResult).rid = some s ∧ ¬s = ""
        ∧ ([⟨some "1", ['a'], 1⟩] ++ [⟨some "1", ['b'], 0⟩] :
            List RetrievalResult).find?
            (fun x => decide (x.rid = (⟨some "1", ['a'], 1⟩ : RetrievalResult).rid))
          = some ⟨some "1", ['a'], 1⟩)
      ∧ ((∃ r ∈ hybridSearchMerge [⟨some "1", ['a'], 1⟩] [⟨some "2", ['b'], 0⟩], r.rid = some "2")
          ↔ ∃ r ∈ hybridSearchMerge [⟨some "2", ['b'], 0⟩] [⟨some "1", ['a'], 1⟩],
              r.rid = some "2") := by
  constructor
  · exact hybrid_merge_union_by_id.1 [⟨some "1", ['a'], 1⟩] [⟨some "1", ['b'], 0⟩]
      ⟨some "1", ['a'], 1⟩ (by decide)
  · exact hybrid_merge_union_by_id.2.2.1 [⟨some "1", ['a'], 1⟩] [⟨some "2", ['b'], 0⟩] "2"

/-! ### C7: lexical-fallback score bounds -/

theorem startsWithChars_length : ∀ {p s : List Char}, startsWithChars p s = true →
    p.length ≤ s.length
  | [], _, _ => by simp
  | _ :: _, [], h => by simp [startsWithChars] at h
  | a :: ps, c :: cs, h => by
    simp only [startsWithChars, Bool.and_eq_true] at h
    simpa using startsWithChars_length h.2

theorem countOccursFrom_mul_le (q : List Char) (hq : ¬q = []) :
    ∀ s : List Char, countOccursFrom q s * q.length ≤ s.length
  | [] => by simp [countOccursFrom]
  | c :: rest => by
    have hq1 : 1 ≤ q.length := by
      cases q with
      | nil => exact absurd rfl hq
      | cons a t => simp
    rw [countOccursFrom]
    by_cases hpre : startsWithChars q (c :: rest) = true
    · rw [if_pos hpre]
      have hlen : q.length ≤ rest.length + 1 := by
        simpa using startsWithChars_length hpre
      have ih := countOccursFrom_mul_le q hq (List.drop (q.length - 1) rest)
      rw [List.length_drop] at ih
      rw [Nat.add_mul, Nat.one_mul]
      simp only [List.length_cons]
      omega
    · rw [if_neg hpre]
      have ih := countOccursFrom_mul_le q hq rest
      simp only [List.length_cons]
      omega
termination_by s => s.length
decreasing_by
  · simp only [List.length_drop, List.length_cons]
    omega
  · simp only [List.length_cons]
    omega

theorem fallbackScore_bounds (q tl : List Char) (hq : ¬q = []) :
    0 ≤ fallbackScore q tl ∧ fallbackScore q tl ≤ 1 := by
  have hq1 : 1 ≤ q.length := by
    cases q with
    | nil => exact absurd rfl hq
    | cons a t => simp
  have hcount : pythonCount q tl ≤ tl.length := by
    rw [pythonCount, if_neg hq]
    have h1 := countOccursFrom_mul_le q hq tl
    have h2 : countOccursFrom q tl ≤ countOccursFrom q tl * q.length :=
      Nat.le_mul_of_pos_right _ (by omega)
    omega
  constructor
  · exact div_nonneg (by positivity) (by positivity)
  · rw [fallbackScore, div_le_one (by positivity)]
    have : pythonCount q tl ≤ max tl.length 1 := le_trans hcount (Nat.le_max_left _ _)
    exact_mod_cast this

theorem mem_insertByScoreDesc {x r : RetrievalResult} :
    ∀ {l : List RetrievalResult}, x ∈ insertByScoreDesc r l → x = r ∨ x ∈ l
  | [], h => by simpa [insertByScoreDesc] using h
  | y :: ys, h => by
    rw [insertByScoreDesc] at h
    split at h
    · rcases List.mem_cons.mp h with rfl | h2
      · exact Or.inl rfl
      · exact Or.inr h2
    · rcases List.mem_cons.mp h with rfl | h2
      · exact Or.inr (by simp)
      · rcases mem_insertByScoreDesc h2 with h3 | h3
        · exact Or.inl h3
        · exact Or.inr (by simp [h3])

theorem mem_sortByScoreDesc {x : RetrievalResult} :
    ∀ {l : List RetrievalResult}, x ∈ sortByScoreDesc l → x ∈ l
  | [], h => by simpa [sortByScoreDesc] using h
  | y :: ys, h => by
    rw [sortByScoreDesc] at h
    rcases mem_insertByScoreDesc h with rfl | h2
    · simp
    · simp [mem_sortByScoreDesc h2]

/-- C7 (amended): for every nonempty query, every stored chunk matched by
the lexical fallback carries a score
`occurrences / max(len(text), 1)` in `[0, 1]`; the empty query escapes the
bound (see the counterexample), so nonemptiness is required. -/
theorem lexical_fallback_score_in_unit (query : List Char) (points : List ScrollPoint)
    (topK : Nat) (r : RetrievalResult) (hq : ¬query = [])
    (hr : r ∈ textSearchFallbackBody query points topK) :
    0 ≤ r.score ∧ r.score ≤ 1 := by
  have h1 : r ∈ sortByScoreDesc (matchedResults query points) :=
    List.mem_of_mem_take hr
  have h2 : r ∈ matchedResults query points := mem_sortByScoreDesc h1
  obtain ⟨p, _, rfl⟩ := List.mem_map.mp h2
  have hql : ¬toLowerChars query = [] := by
    cases query with
    | nil => exact absurd rfl hq
    | cons c t => simp [toLowerChars]
  exact fallbackScore_bounds (toLowerChars query) (toLowerChars p.ptext) hql

/-- Witness for C7 at a concrete input: the query `"a"` matching the
single-character chunk `"a"` scores exactly 1, inside the unit interval. -/
theorem lexical_fallback_score_in_unit_witness :
    0 ≤ (RetrievalResult.mk (some "p") ['a'] 1).score
      ∧ (RetrievalResult.mk (some "p") ['a'] 1).score ≤ 1 := by
  have htl : Char.toLower 'a' = 'a' := by decide
  have hc : countOccursFrom ['a'] ['a'] = 1 := by
    rw [countOccursFrom]
    norm_num [startsWithChars, countOccursFrom]
  have hmem : (RetrievalResult.mk (some "p") ['a'] 1)
      ∈ textSearchFallbackBody ['a'] [⟨some "p", ['a']⟩] 5 := by
    have hscore : fallbackScore ['a'] ['a'] = 1 := by
      rw [fallbackScore, pythonCount]
      norm_num [hc]
    simp [textSearchFallbackBody, matchedResults, containsSubstr, startsWithChars,
      sortByScoreDesc, insertByScoreDesc, scoreMatchedPoint, hscore, toLowerChars, htl]
  exact lexical_fallback_score_in_unit ['a'] [⟨some "p", ['a']⟩] 5
    (RetrievalResult.mk (some "p") ['a'] 1) (by simp) hmem

/-- C7 counterexample: with the empty query — which the fallback matches
against every chunk, since `"" in text` is true and `text.count("") =
len(text) + 1` — the chunk `"a"` is scored `2/max(1,1) = 2 > 1`, so the
claim's bound fails for that query. -/
theorem lexical_fallback_score_counterexample :
    textSearchFallbackBody [] [⟨some "p", ['a']⟩] 5
        = [RetrievalResult.mk (some "p") ['a'] 2]
      ∧ ¬((2 : ℚ) ≤ 1) := by
  have htl : Char.toLower 'a' = 'a' := by decide
  have hscore : fallbackScore [] ['a'] = 2 := by
    rw [fallbackScore, pythonCount]
    norm_num
  refine ⟨?_, by norm_num⟩
  simp [textSearchFallbackBody, matchedResults, containsSubstr, startsWithChars,
    sortByScoreDesc, insertByScoreDesc, scoreMatchedPoint, hscore, toLowerChars, htl]

/-! ### C6: number rendering and parsing round trip -/

theorem charToDigit_digitToChar {k : Nat} (h : k < 10) :
    charToDigit (digitToChar k) = k ∧ isDigitChar (digitToChar k) = true := by
  interval_cases k <;> exact ⟨by decide, by decide⟩

theorem digit_not_ws {c : Char} (h : isDigitChar c = true) : isWsChar c = false := by
  by_contra hws
  rw [Bool.not_eq_false] at hws
  simp only [isWsChar, Bool.or_eq_true, decide_eq_true_eq] at hws
  rcases hws with ((((rfl | rfl) | rfl) | rfl) | rfl) | rfl <;> revert h <;> decide

theorem digit_excl {c : Char} (h : isDigitChar c = true) :
    ¬c = 'n' ∧ ¬c = 't' ∧ ¬c = 'f' ∧ ¬c = quoteChar ∧ ¬c = '[' ∧ ¬c = lbraceChar
      ∧ ¬c = '-' ∧ ¬c = ']' ∧ ¬c = ',' := by
  refine ⟨?_, ?_, ?_, ?_, ?_, ?_, ?_, ?_, ?_⟩ <;> rintro rfl <;> revert h <;> decide

theorem natToChars_ne_nil (n : Nat) : ¬natToChars n = [] := by
  rw [natToChars]
  split_ifs <;> simp

theorem natToChars_all_digits : ∀ (n : Nat) (c : Char), c ∈ natToChars n →
    isDigitChar c = true
  | n, c, h => by
    rw [natToChars] at h
    by_cases hn : n < 10
    · rw [if_pos hn] at h
      rcases List.mem_singleton.mp h with rfl
      exact (charToDigit_digitToChar hn).2
    · rw [if_neg hn] at h
      rcases List.mem_append.mp h with h2 | h2
      · exact natToChars_all_digits (n / 10) c h2
      · rcases List.mem_singleton.mp h2 with rfl
        exact (charToDigit_digitToChar (Nat.mod_lt _ (by omega))).2
termination_by n => n
decreasing_by exact Nat.div_lt_self (by omega) (by omega)

theorem digitsToNat_append_digit (ds : List Char) (d : Char) :
    digitsToNat (ds ++ [d]) = digitsToNat ds * 10 + charToDigit d := by
  simp [digitsToNat, List.foldl_append]

theorem digitsToNat_natToChars : ∀ n : Nat, digitsToNat (natToChars n) = n
  | n => by
    rw [natToChars]
    by_cases hn : n < 10
    · rw [if_pos hn]
      show digitsToNat ([] ++ [digitToChar n]) = n
      rw [digitsToNat_append_digit]
      simp [digitsToNat, (charToDigit_digitToChar hn).1]
    · rw [if_neg hn]
      rw [digitsToNat_append_digit, digitsToNat_natToChars (n / 10),
        (charToDigit_digitToChar (Nat.mod_lt _ (by omega))).1]
      omega
termination_by n => n
decreasing_by exact Nat.div_lt_self (by omega) (by omega)

theorem takeWhile_append_all {p : Char → Bool} : ∀ (xs r : List Char),
    (∀ x ∈ xs, p x = true) → (∀ c t, r = c :: t → p c = false) →
    (xs ++ r).takeWhile p = xs ∧ (xs ++ r).dropWhile p = r
  | [], r, _, hr => by
    cases r with
    | nil => simp
    | cons c t =>
      simp only [List.nil_append, List.takeWhile_cons, List.dropWhile_cons, hr c t rfl]
      simp
  | x :: xs, r, hxs, hr => by
    have hx : p x = true := hxs x (by simp)
    have ih := takeWhile_append_all xs r (fun y hy => hxs y (by simp [hy])) hr
    simp only [List.cons_append, List.takeWhile_cons, List.dropWhile_cons, hx]
    simp [ih.1, ih.2]

theorem parseNat_natToChars (n : Nat) (r : List Char)
    (hr : ∀ c t, r = c :: t → isDigitChar c = false) :
    parseNat (natToChars n ++ r) = some (n, r) := by
  have h := takeWhile_append_all (natToChars n) r (natToChars_all_digits n) hr
  rw [parseNat, h.1, h.2]
  have := natToChars_ne_nil n
  cases hnc : natToChars n with
  | nil => exact absurd hnc this
  | cons c t =>
    show some (digitsToNat (c :: t), r) = some (n, r)
    rw [← hnc, digitsToNat_natToChars]

theorem parseNum_intToChars (n : Int) (r : List Char)
    (hr : ∀ c t, r = c :: t → isDigitChar c = false) :
    parseNum (intToChars n ++ r) = some (n, r) := by
  rw [intToChars]
  by_cases hn : n < 0
  · rw [if_pos hn, List.cons_append, parseNum, if_pos rfl,
      parseNat_natToChars n.natAbs r hr]
    show some (-(n.natAbs : Int), r) = some (n, r)
    have he : -(n.natAbs : Int) = n := by omega
    rw [he]
  · rw [if_neg hn]
    obtain ⟨c, t, hct⟩ := List.exists_cons_of_ne_nil (natToChars_ne_nil n.toNat)
    have hc : isDigitChar c = true :=
      natToChars_all_digits n.toNat c (by rw [hct]; simp)
    rw [hct, List.cons_append, parseNum, if_neg (digit_excl hc).2.2.2.2.2.2.1,
      ← List.cons_append, ← hct, parseNat_natToChars n.toNat r hr]
    show some ((n.toNat : Int), r) = some (n, r)
    have he : (n.toNat : Int) = n := by omega
    rw [he]

/-! ### C6: string escaping round trip -/

theorem escapeChars_cons (c : Char) (s : List Char) :
    escapeChars (c :: s) = escChar c ++ escapeChars s := by
  simp [escapeChars]

theorem parseStringBody_cons (c : Char) (rest : List Char) :
    parseStringBody (c :: rest) = if c = quoteChar then some ([], rest)
      else if c = bslashChar then
        match rest with
        | [] => none
        | e :: rest2 =>
          match unescChar e with
          | none => none
          | some d =>
            match parseStringBody rest2 with
            | none => none
            | some (s, r) => some (d :: s, r)
      else
        match parseStringBody rest with
        | none => none
        | some (s, r) => some (c :: s, r) := by
  rw [parseStringBody.eq_def]

theorem parseStringBody_escape : ∀ (s r : List Char),
    parseStringBody (escapeChars s ++ quoteChar :: r) = some (s, r)
  | [], r => by
    show parseStringBody (quoteChar :: r) = some ([], r)
    rw [parseStringBody_cons, if_pos rfl]
  | c :: s, r => by
    rw [escapeChars_cons, List.append_assoc]
    have ih := parseStringBody_escape s r
    rw [escChar]
    by_cases h1 : c = quoteChar
    · subst h1
      rw [if_pos rfl]
      show parseStringBody (bslashChar :: quoteChar :: (escapeChars s ++ quoteChar :: r))
        = some (quoteChar :: s, r)
      rw [parseStringBody_cons, if_neg (by decide), if_pos rfl]
      dsimp only
      rw [show unescChar quoteChar = some quoteChar from by decide, ih]
    · rw [if_neg h1]
      by_cases h2 : c = bslashChar
      · subst h2
        rw [if_pos rfl]
        show parseStringBody (bslashChar :: bslashChar :: (escapeChars s ++ quoteChar :: r))
          = some (bslashChar :: s, r)
        rw [parseStringBody_cons, if_neg (by decide), if_pos rfl]
        dsimp only
        rw [show unescChar bslashChar = some bslashChar from by decide, ih]
      · rw [if_neg h2]
        by_cases h3 : c = '\n'
        · subst h3
          rw [if_pos rfl]
          show parseStringBody (bslashChar :: 'n' :: (escapeChars s ++ quoteChar :: r))
            = some ('\n' :: s, r)
          rw [parseStringBody_cons, if_neg (by decide), if_pos rfl]
          dsimp only
          rw [show unescChar 'n' = some '\n' from by decide, ih]
        · rw [if_neg h3]
          by_cases h4 : c = '\t'
          · subst h4
            rw [if_pos rfl]
            show parseStringBody (bslashChar :: 't' :: (escapeChars s ++ quoteChar :: r))
              = some ('\t' :: s, r)
            rw [parseStringBody_cons, if_neg (by decide), if_pos rfl]
            dsimp only
            rw [show unescChar 't' = some '\t' from by decide, ih]
          · rw [if_neg h4]
            by_cases h5 : c = '\r'
            · subst h5
              rw [if_pos rfl]
              show parseStringBody (bslashChar :: 'r' :: (escapeChars s ++ quoteChar :: r))
                = some ('\r' :: s, r)
              rw [parseStringBody_cons, if_neg (by decide), if_pos rfl]
              dsimp only
              rw [show unescChar 'r' = some '\r' from by decide, ih]
            · rw [if_neg h5]
              show parseStringBody (c :: (escapeChars s ++ quoteChar :: r))
                = some (c :: s, r)
              rw [parseStringBody_cons, if_neg h1, if_neg h2, ih]

/-! ### C6: shape facts about serialised values -/

theorem stringify_head : ∀ x : Jval, ∃ c t, stringifyJ x = c :: t
    ∧ isWsChar c = false ∧ ¬c = ']' ∧ ¬c = ',' := by
  intro x
  cases x with
  | jnull => exact ⟨'n', _, rfl, by decide, by decide, by decide⟩
  | jbool b =>
    cases b with
    | false => refine ⟨'f', _, rfl, by decide, by decide, by decide⟩
    | true => refine ⟨'t', _, rfl, by decide, by decide, by decide⟩
  | jnum n =>
    rw [stringifyJ, intToChars]
    by_cases hn : n < 0
    · rw [if_pos hn]
      exact ⟨'-', _, rfl, by decide, by decide, by decide⟩
    · rw [if_neg hn]
      obtain ⟨c, t, hct⟩ := List.exists_cons_of_ne_nil (natToChars_ne_nil n.toNat)
      have hc : isDigitChar c = true :=
        natToChars_all_digits n.toNat c (by rw [hct]; simp)
      exact ⟨c, t, hct, digit_not_ws hc, (digit_excl hc).2.2.2.2.2.2.2.1,
        (digit_excl hc).2.2.2.2.2.2.2.2⟩
  | jstr s =>
    exact ⟨quoteChar, escapeChars s ++ [quoteChar], rfl, by decide, by decide, by decide⟩
  | jarr xs => exact ⟨'[', _, rfl, by decide, by decide, by decide⟩
  | jobj fs => exact ⟨lbraceChar, _, rfl, by decide, by decide, by decide⟩

theorem stringify_last : ∀ x : Jval, ∃ m d, stringifyJ x = m ++ [d] ∧ isWsChar d = false := by
  intro x
  cases x with
  | jnull => exact ⟨['n', 'u', 'l'], 'l', rfl, by decide⟩
  | jbool b =>
    cases b with
    | true => exact ⟨['t', 'r', 'u'], 'e', rfl, by decide⟩
    | false => exact ⟨['f', 'a', 'l', 's'], 'e', rfl, by decide⟩
  | jnum n =>
    rw [stringifyJ, intToChars]
    by_cases hn : n < 0
    · rw [if_pos hn]
      obtain ⟨L, b, hLb0⟩ := (List.eq_nil_or_concat (natToChars n.natAbs)).resolve_left
        (natToChars_ne_nil n.natAbs)
      have hLb : natToChars n.natAbs = L ++ [b] := by
        simpa [List.concat_eq_append] using hLb0
      have hb : isDigitChar b = true :=
        natToChars_all_digits n.natAbs b (by rw [hLb]; simp)
      exact ⟨'-' :: L, b, by rw [hLb, List.cons_append], digit_not_ws hb⟩
    · rw [if_neg hn]
      obtain ⟨L, b, hLb0⟩ := (List.eq_nil_or_concat (natToChars n.toNat)).resolve_left
        (natToChars_ne_nil n.toNat)
      have hLb : natToChars n.toNat = L ++ [b] := by
        simpa [List.concat_eq_append] using hLb0
      have hb : isDigitChar b = true :=
        natToChars_all_digits n.toNat b (by rw [hLb]; simp)
      exact ⟨L, b, hLb, digit_not_ws hb⟩
  | jstr s =>
    exact ⟨quoteChar :: escapeChars s, quoteChar, by rw [stringifyJ], by decide⟩
  | jarr xs => exact ⟨'[' :: stringifyElems xs, ']', by rw [stringifyJ], by decide⟩
  | jobj fs =>
    exact ⟨lbraceChar :: stringifyFields fs, rbraceChar, by rw [stringifyJ], by decide⟩

theorem stringify_ne_nil (x : Jval) : ¬stringifyJ x = [] := by
  obtain ⟨c, t, hct, _⟩ := stringify_head x
  rw [hct]
  simp

theorem jsize_pos (x : Jval) : 1 ≤ jsize x := by
  cases x <;> simp [jsize]

theorem jsizeElems_pos (xs : List Jval) : 1 ≤ jsizeElems xs := by
  cases xs <;> simp [jsizeElems]

theorem jsizeFields_pos (fs : List (List Char × Jval)) : 1 ≤ jsizeFields fs := by
  cases fs with
  | nil => simp [jsizeFields]
  | cons f t =>
    cases f
    simp [jsizeFields]

mutual

theorem jsize_le : ∀ x : Jval, jsize x ≤ (stringifyJ x).length + 1
  | .jnull => by simp [jsize, stringifyJ]
  | .jbool b => by cases b <;> simp [jsize, stringifyJ]
  | .jnum n => by simp [jsize]
  | .jstr s => by simp [jsize]
  | .jarr xs => by
    have h := jsizeElems_le xs
    simp only [jsize, stringifyJ, List.length_cons, List.length_append,
      List.length_singleton]
    omega
  | .jobj fs => by
    have h := jsizeFields_le fs
    simp only [jsize, stringifyJ, List.length_cons, List.length_append,
      List.length_singleton]
    omega

theorem jsizeElems_le : ∀ xs : List Jval, jsizeElems xs ≤ (stringifyElems xs).length + 2
  | [] => by simp [jsizeElems, stringifyElems]
  | [x] => by
    have h := jsize_le x
    simp only [jsizeElems, stringifyElems]
    omega
  | x :: y :: ys => by
    have h1 := jsize_le x
    have h2 := jsizeElems_le (y :: ys)
    have h3 : 1 ≤ (stringifyJ x).length := List.length_pos.mpr (stringify_ne_nil x)
    rw [jsizeElems, stringifyElems]
    simp only [List.length_append, List.length_cons]
    omega

theorem jsizeFields_le : ∀ fs : List (List Char × Jval),
    jsizeFields fs ≤ (stringifyFields fs).length + 2
  | [] => by simp [jsizeFields, stringifyFields]
  | [(k, v)] => by
    have h := jsize_le v
    simp only [jsizeFields, stringifyFields, List.length_cons, List.length_append]
    omega
  | (k, v) :: f :: fs => by
    have h1 := jsize_le v
    have h2 := jsizeFields_le (f :: fs)
    rw [jsizeFields, stringifyFields]
    simp only [List.length_cons, List.length_append]
    omega

end

/-! ### C6: parser dispatch lemmas -/

theorem parseJ_cons_ws (fuel : Nat) (c : Char) (l : List Char) (h : isWsChar c = true) :
    parseJ fuel (c :: l) = parseJ fuel l := by
  cases fuel with
  | zero => rfl
  | succ f =>
    simp only [parseJ]
    rw [List.dropWhile_cons, if_pos h]

theorem parseElems_cons_ws (fuel : Nat) (c : Char) (l : List Char) (h : isWsChar c = true) :
    parseElems fuel (c :: l) = parseElems fuel l := by
  cases fuel with
  | zero => rfl
  | succ f =>
    simp only [parseElems]
    rw [List.dropWhile_cons, if_pos h]

theorem parseFields_cons_ws (fuel : Nat) (c : Char) (l : List Char) (h : isWsChar c = true) :
    parseFields fuel (c :: l) = parseFields fuel l := by
  cases fuel with
  | zero => rfl
  | succ f =>
    simp only [parseFields]
    rw [List.dropWhile_cons, if_pos h]

theorem parseJ_succ_null (f : Nat) (r : List Char) :
    parseJ (f + 1) ('n' :: 'u' :: 'l' :: 'l' :: r) = some (Jval.jnull, r) := by
  simp only [parseJ]
  rw [List.dropWhile_cons, if_neg (by decide)]
  simp +decide [dropExpect]

theorem parseJ_succ_true (f : Nat) (r : List Char) :
    parseJ (f + 1) ('t' :: 'r' :: 'u' :: 'e' :: r) = some (Jval.jbool true, r) := by
  simp only [parseJ]
  rw [List.dropWhile_cons, if_neg (by decide)]
  simp +decide [dropExpect]

theorem parseJ_succ_false (f : Nat) (r : List Char) :
    parseJ (f + 1) ('f' :: 'a' :: 'l' :: 's' :: 'e' :: r) = some (Jval.jbool false, r) := by
  simp only [parseJ]
  rw [List.dropWhile_cons, if_neg (by decide)]
  simp +decide [dropExpect]

theorem parseJ_succ_str (f : Nat) (s r : List Char) :
    parseJ (f + 1) (quoteChar :: (escapeChars s ++ quoteChar :: r))
      = some (Jval.jstr s, r) := by
  simp only [parseJ]
  rw [List.dropWhile_cons, if_neg (by decide)]
  dsimp only
  rw [if_neg (by decide), if_neg (by decide), if_neg (by decide), if_pos rfl,
    parseStringBody_escape]
  rfl

theorem parseJ_succ_arr (f : Nat) (l : List Char) :
    parseJ (f + 1) ('[' :: l)
      = (parseElems f l).map fun p => (Jval.jarr p.1, p.2) := by
  simp only [parseJ]
  rw [List.dropWhile_cons, if_neg (by decide)]
  dsimp only
  rw [if_neg (by decide), if_neg (by decide), if_neg (by decide), if_neg (by decide),
    if_pos rfl]

theorem parseJ_succ_obj (f : Nat) (l : List Char) :
    parseJ (f + 1) (lbraceChar :: l)
      = (parseFields f l).map fun p => (Jval.jobj p.1, p.2) := by
  simp only [parseJ]
  rw [List.dropWhile_cons, if_neg (by decide)]
  dsimp only
  rw [if_neg (by decide), if_neg (by decide), if_neg (by decide), if_neg (by decide),
    if_neg (by decide), if_pos rfl]

theorem parseJ_succ_num (f : Nat) (c : Char) (rest : List Char)
    (hc : isDigitChar c = true ∨ c = '-') :
    parseJ (f + 1) (c :: rest)
      = (parseNum (c :: rest)).map fun p => (Jval.jnum p.1, p.2) := by
  have hws : isWsChar c = false := by
    rcases hc with hc | rfl
    · exact digit_not_ws hc
    · decide
  have he : ¬c = 'n' ∧ ¬c = 't' ∧ ¬c = 'f' ∧ ¬c = quoteChar ∧ ¬c = '['
      ∧ ¬c = lbraceChar := by
    rcases hc with hc | rfl
    · obtain ⟨h1, h2, h3, h4, h5, h6, _, _, _⟩ := digit_excl hc
      exact ⟨h1, h2, h3, h4, h5, h6⟩
    · exact ⟨by decide, by decide, by decide, by decide, by decide, by decide⟩
  simp only [parseJ]
  rw [List.dropWhile_cons, if_neg (by simp [hws])]
  dsimp only
  rw [if_neg he.1, if_neg he.2.1, if_neg he.2.2.1, if_neg he.2.2.2.1,
    if_neg he.2.2.2.2.1, if_neg he.2.2.2.2.2]

theorem intToChars_head (n : Int) :
    ∃ c t, intToChars n = c :: t ∧ (isDigitChar c = true ∨ c = '-') := by
  rw [intToChars]
  by_cases hn : n < 0
  · exact ⟨'-', natToChars n.natAbs, by rw [if_pos hn], Or.inr rfl⟩
  · rw [if_neg hn]
    cases hnc : natToChars n.toNat with
    | nil => exact absurd hnc (natToChars_ne_nil _)
    | cons c t =>
      refine ⟨c, t, rfl, Or.inl ?_⟩
      exact natToChars_all_digits n.toNat c (by rw [hnc]; exact List.mem_cons_self c t)

/-- The round trip of the serialiser and the fuel parser, by induction on
fuel across the three mutually recursive parsers. -/
theorem parse_stringify : ∀ fuel : Nat,
    (∀ (x : Jval) (r : List Char), jsize x ≤ fuel →
        (∀ c t, r = c :: t → isDigitChar c = false) →
        parseJ fuel (stringifyJ x ++ r) = some (x, r))
    ∧ (∀ (xs : List Jval) (r : List Char), jsizeElems xs ≤ fuel →
        parseElems fuel (stringifyElems xs ++ ']' :: r) = some (xs, r))
    ∧ (∀ (fs : List (List Char × Jval)) (r : List Char), jsizeFields fs ≤ fuel →
        parseFields fuel (stringifyFields fs ++ rbraceChar :: r) = some (fs, r)) := by
  intro fuel
  induction fuel with
  | zero =>
    refine ⟨fun x r hx _ => absurd hx (by have := jsize_pos x; omega),
      fun xs r hx => absurd hx (by have := jsizeElems_pos xs; omega),
      fun fs r hx => absurd hx (by have := jsizeFields_pos fs; omega)⟩
  | succ f ih =>
    obtain ⟨ihJ, ihE, ihF⟩ := ih
    refine ⟨?_, ?_, ?_⟩
    · intro x r hx hr
      cases x with
      | jnull => exact parseJ_succ_null f r
      | jbool b =>
        cases b with
        | false => exact parseJ_succ_false f r
        | true => exact parseJ_succ_true f r
      | jnum n =>
        obtain ⟨c, t, hct, hc⟩ := intToChars_head n
        have h1 : stringifyJ (Jval.jnum n) ++ r = c :: (t ++ r) := by
          simp only [stringifyJ]
          rw [hct]
          rfl
        have h2 : c :: (t ++ r) = intToChars n ++ r := by rw [hct]; rfl
        rw [h1, parseJ_succ_num f c (t ++ r) hc, h2, parseNum_intToChars n r hr]
        rfl
      | jstr s =>
        have h1 : stringifyJ (Jval.jstr s) ++ r
            = quoteChar :: (escapeChars s ++ quoteChar :: r) := by
          simp only [stringifyJ]
          simp
        rw [h1]
        exact parseJ_succ_str f s r
      | jarr xs =>
        have h1 : stringifyJ (Jval.jarr xs) ++ r
            = '[' :: (stringifyElems xs ++ ']' :: r) := by
          simp only [stringifyJ]
          simp
        rw [h1, parseJ_succ_arr, ihE xs r (by simp only [jsize] at hx; omega)]
        rfl
      | jobj fs =>
        have h1 : stringifyJ (Jval.jobj fs) ++ r
            = lbraceChar :: (stringifyFields fs ++ rbraceChar :: r) := by
          simp only [stringifyJ]
          simp
        rw [h1, parseJ_succ_obj, ihF fs r (by simp only [jsize] at hx; omega)]
        rfl
    · intro xs r hx
      cases xs with
      | nil =>
        have h1 : stringifyElems [] ++ ']' :: r = ']' :: r := by
          simp only [stringifyElems]
          simp
        rw [h1]
        simp only [parseElems]
        rw [List.dropWhile_cons, if_neg (by decide)]
        dsimp only
        rw [if_pos rfl]
      | cons x xs' =>
        obtain ⟨c, t, hct, hcw, hcb, hcc⟩ := stringify_head x
        cases xs' with
        | nil =>
          have hJ : jsize x ≤ f := by simp only [jsizeElems] at hx; omega
          have hd : ∀ c' t', (']' :: r : List Char) = c' :: t' → isDigitChar c' = false := by
            intro c' t' h
            injection h with h1 _
            rw [← h1]
            decide
          have hparse := ihJ x (']' :: r) hJ hd
          have hin : stringifyJ x ++ ']' :: r = c :: (t ++ ']' :: r) := by rw [hct]; rfl
          have h1 : stringifyElems [x] ++ ']' :: r = c :: (t ++ ']' :: r) := by
            simp only [stringifyElems]
            exact hin
          rw [h1]
          simp only [parseElems]
          rw [List.dropWhile_cons, if_neg (by simp [hcw])]
          dsimp only
          rw [if_neg hcb, ← hin, hparse]
          simp +decide [List.dropWhile_cons]
        | cons y ys =>
          have hJ : jsize x ≤ f := by simp only [jsizeElems] at hx; omega
          have hE : jsizeElems (y :: ys) ≤ f := by
            simp only [jsizeElems] at hx ⊢
            omega
          have hd : ∀ c' t',
              (',' :: ' ' :: (stringifyElems (y :: ys) ++ ']' :: r) : List Char) = c' :: t' →
              isDigitChar c' = false := by
            intro c' t' h
            injection h with h1 _
            rw [← h1]
            decide
          have hparse := ihJ x (',' :: ' ' :: (stringifyElems (y :: ys) ++ ']' :: r)) hJ hd
          have hskip : parseElems f (' ' :: (stringifyElems (y :: ys) ++ ']' :: r))
              = parseElems f (stringifyElems (y :: ys) ++ ']' :: r) :=
            parseElems_cons_ws f ' ' _ (by decide)
          have hrec := ihE (y :: ys) r hE
          have hin : stringifyJ x ++ ',' :: ' ' :: (stringifyElems (y :: ys) ++ ']' :: r)
              = c :: (t ++ ',' :: ' ' :: (stringifyElems (y :: ys) ++ ']' :: r)) := by
            rw [hct]
            rfl
          have h1 : stringifyElems (x :: y :: ys) ++ ']' :: r
              = c :: (t ++ ',' :: ' ' :: (stringifyElems (y :: ys) ++ ']' :: r)) := by
            simp only [stringifyElems]
            rw [← hin]
            simp
          rw [h1]
          simp only [parseElems]
          rw [List.dropWhile_cons, if_neg (by simp [hcw])]
          dsimp only
          rw [if_neg hcb, ← hin, hparse]
          simp +decide [List.dropWhile_cons, hskip, hrec]
    · intro fs r hx
      cases fs with
      | nil =>
        have h1 : stringifyFields [] ++ rbraceChar :: r = rbraceChar :: r := by
          simp only [stringifyFields]
          simp
        rw [h1]
        simp only [parseFields]
        rw [List.dropWhile_cons, if_neg (by decide)]
        dsimp only
        rw [if_pos rfl]
      | cons kv fs' =>
        obtain ⟨k, v⟩ := kv
        cases fs' with
        | nil =>
          have hv : jsize v ≤ f := by simp only [jsizeFields] at hx; omega
          have hd : ∀ c' t', (rbraceChar :: r : List Char) = c' :: t' →
              isDigitChar c' = false := by
            intro c' t' h
            injection h with h1 _
            rw [← h1]
            decide
          have hparse := ihJ v (rbraceChar :: r) hv hd
          have h1 : stringifyFields [(k, v)] ++ rbraceChar :: r
              = quoteChar :: (escapeChars k
                  ++ quoteChar :: ':' :: ' ' :: (stringifyJ v ++ rbraceChar :: r)) := by
            simp only [stringifyFields]
            simp
          rw [h1]
          simp only [parseFields]
          rw [List.dropWhile_cons, if_neg (by decide)]
          dsimp only
          rw [if_neg (by decide), if_pos rfl, parseStringBody_escape]
          dsimp only
          rw [List.dropWhile_cons, if_neg (by decide)]
          dsimp only
          rw [if_pos rfl, parseJ_cons_ws f ' ' _ (by decide), hparse]
          simp +decide [List.dropWhile_cons]
        | cons g gs =>
          have hv : jsize v ≤ f := by simp only [jsizeFields] at hx; omega
          have hF : jsizeFields (g :: gs) ≤ f := by
            simp only [jsizeFields] at hx ⊢
            omega
          have hd : ∀ c' t',
              (',' :: ' ' :: (stringifyFields (g :: gs) ++ rbraceChar :: r) : List Char)
                = c' :: t' → isDigitChar c' = false := by
            intro c' t' h
            injection h with h1 _
            rw [← h1]
            decide
          have hparse :=
            ihJ v (',' :: ' ' :: (stringifyFields (g :: gs) ++ rbraceChar :: r)) hv hd
          have hskip : parseFields f (' ' :: (stringifyFields (g :: gs) ++ rbraceChar :: r))
              = parseFields f (stringifyFields (g :: gs) ++ rbraceChar :: r) :=
            parseFields_cons_ws f ' ' _ (by decide)
          have hrec := ihF (g :: gs) r hF
          have h1 : stringifyFields ((k, v) :: g :: gs) ++ rbraceChar :: r
              = quoteChar :: (escapeChars k ++ quoteChar :: ':' :: ' '
                  :: (stringifyJ v
                    ++ ',' :: ' ' :: (stringifyFields (g :: gs) ++ rbraceChar :: r))) := by
            simp only [stringifyFields]
            simp
          rw [h1]
          simp only [parseFields]
          rw [List.dropWhile_cons, if_neg (by decide)]
          dsimp only
          rw [if_neg (by decide), if_pos rfl, parseStringBody_escape]
          dsimp only
          rw [List.dropWhile_cons, if_neg (by decide)]
          dsimp only
          rw [if_pos rfl, parseJ_cons_ws f ' ' _ (by decide), hparse]
          simp +decide [List.dropWhile_cons, hskip, hrec]

theorem jsonLoads_stringify (x : Jval) : jsonLoads (stringifyJ x) = some x := by
  have hd : ∀ c t, ([] : List Char) = c :: t → isDigitChar c = false := by
    intro c t h
    exact absurd h (by simp)
  have hp := (parse_stringify ((stringifyJ x).length + 1)).1 x [] (jsize_le x) hd
  rw [List.append_nil] at hp
  simp only [jsonLoads]
  rw [hp]
  simp

theorem dropWhile_stringify_append (x : Jval) (r : List Char) :
    (stringifyJ x ++ r).dropWhile isWsChar = stringifyJ x ++ r := by
  obtain ⟨c, t, hct, hcw, _, _⟩ := stringify_head x
  rw [hct, List.cons_append, List.dropWhile_cons, if_neg (by simp [hcw])]

theorem stripChars_of_ends (c d : Char) (m : List Char)
    (hc : isWsChar c = false) (hd : isWsChar d = false) :
    stripChars (c :: (m ++ [d])) = c :: (m ++ [d]) := by
  rw [stripChars, List.dropWhile_cons, if_neg (by simp [hc])]
  rw [show (c :: (m ++ [d])).reverse = d :: (m.reverse ++ [c]) from by simp]
  rw [List.dropWhile_cons, if_neg (by simp [hd])]
  rw [show (d :: (m.reverse ++ [c])).reverse = c :: (m ++ [d]) from by simp]

theorem stripChars_stringify_newline (x : Jval) :
    stripChars (stringifyJ x ++ ['\n']) = stringifyJ x := by
  obtain ⟨m, d, hmd, hdw⟩ := stringify_last x
  rw [stripChars, dropWhile_stringify_append]
  rw [show (stringifyJ x ++ ['\n']).reverse = '\n' :: (stringifyJ x).reverse from by simp]
  rw [List.dropWhile_cons, if_pos (by decide), hmd]
  rw [show (m ++ [d]).reverse = d :: m.reverse from by simp]
  rw [List.dropWhile_cons, if_neg (by simp [hdw])]
  simp

theorem fencedInner_eval (x : Jval) :
    fencedInner (fenceJsonPat ++ '\n' :: (stringifyJ x ++ '\n' :: fence3))
      = some (stringifyJ x ++ ['\n']) := by
  have hm : matchFencePrefix (fenceJsonPat ++ '\n' :: (stringifyJ x ++ '\n' :: fence3))
      = some ('\n' :: (stringifyJ x ++ '\n' :: fence3)) := by
    show matchFencePrefix (btChar :: btChar :: btChar :: 'j' :: 's' :: 'o' :: 'n'
      :: ('\n' :: (stringifyJ x ++ '\n' :: fence3))) = _
    rw [matchFencePrefix, if_pos (by decide)]
  have hR : ('\n' :: (stringifyJ x ++ '\n' :: fence3)).dropWhile isWsChar
      = stringifyJ x ++ '\n' :: fence3 := by
    rw [List.dropWhile_cons, if_pos (by decide)]
    exact dropWhile_stringify_append x _
  have hlen : (stringifyJ x ++ '\n' :: fence3).length = (stringifyJ x).length + 4 := by
    simp [fence3]
  simp only [fencedInner]
  rw [hm]
  dsimp only
  rw [hR, hlen]
  rw [findSplitAux, if_neg (by
    rw [show (stringifyJ x).length + 3 + 1 = (stringifyJ x).length + 4 from rfl,
      List.drop_append]
    decide)]
  rw [findSplitAux, if_neg (by
    rw [show (stringifyJ x).length + 2 + 1 = (stringifyJ x).length + 3 from rfl,
      List.drop_append]
    decide)]
  rw [findSplitAux, if_neg (by
    rw [show (stringifyJ x).length + 1 + 1 = (stringifyJ x).length + 2 from rfl,
      List.drop_append]
    decide)]
  rw [findSplitAux, if_pos (by rw [List.drop_append]; decide)]
  rw [List.take_append]
  rfl

/-- C6: a reply holding exactly one fenced JSON block with the `json`
language tag is parsed back to the value it serialises:
`_normalize_content_to_response` strips the content, extracts `group(1)`
of the fenced-block pattern, strips it and `json.loads` it, recovering the
original value for every JSON value the model can emit. -/
theorem fenced_json_roundtrip (x : Jval) :
    normalizeContentToResponse (fenceJsonPat ++ '\n' :: (stringifyJ x ++ '\n' :: fence3))
      = NormResult.json x := by
  have hsplit : fenceJsonPat ++ '\n' :: (stringifyJ x ++ '\n' :: fence3)
      = btChar :: (([btChar, btChar, 'j', 's', 'o', 'n', '\n']
          ++ (stringifyJ x ++ ['\n', btChar, btChar])) ++ [btChar]) := by
    simp [fenceJsonPat, fence3]
  have hne : ¬((fenceJsonPat ++ '\n' :: (stringifyJ x ++ '\n' :: fence3)).dropWhile isWsChar
      = []) := by
    rw [show fenceJsonPat ++ '\n' :: (stringifyJ x ++ '\n' :: fence3)
        = btChar :: ([btChar, btChar, 'j', 's', 'o', 'n']
            ++ ('\n' :: (stringifyJ x ++ '\n' :: fence3))) from by simp [fenceJsonPat]]
    rw [List.dropWhile_cons, if_neg (by decide)]
    simp
  have hstrip : stripChars (fenceJsonPat ++ '\n' :: (stringifyJ x ++ '\n' :: fence3))
      = fenceJsonPat ++ '\n' :: (stringifyJ x ++ '\n' :: fence3) := by
    rw [hsplit, stripChars_of_ends _ _ _ (by decide) (by decide)]
  simp only [normalizeContentToResponse]
  rw [if_neg hne, hstrip, fencedInner_eval]
  dsimp only
  rw [stripChars_stringify_newline, jsonLoads_stringify]

end SmartRag
